import Mathlib

/-! # FM-index over a k-mer alphabet (`nano_fmi.cpp`)

A shallow embedding of the index builder (`NanoFMI::NanoFMI`), the suffix comparator
(`operator()`), the rank query (`tally_cp_dist`, `get_tally`), the frontier queries
(`NanoFMI::Query`, its constructors, `intersects`, `split_query`, `is_valid`,
`add_results`), the frontier insert (`update_queries`) and the seed search (`lf_map`).

Conventions of the embedding.

* k-mer identifiers (`mer_id`), suffix-array entries and table positions are
  natural numbers; the signed `int` values of the source (tally entries, rank
  results, interval bounds, match lengths) are integers.  Word sizes are not
  modelled: every statement is about references far shorter than `2^31`.
* `std::vector` is a `List`.  A read outside the vector (undefined in C++) yields
  the element type's zero, except for a BWT read during the rank walk, which
  never matches; a write outside the vector is dropped.  The statements below say
  which inputs keep every access inside its vector.
* The suffix array is the output of `std::sort` in the source; here it is an
  argument of `build`, so that statements can range over all suffix arrays.  The sort
  with the comparator of the source is `sort_suffixes`, and the constructor from the
  reference alone is `construct_from_reference`.
* Log-probabilities are rationals.  The emissions `event_probs[e][k]` are `double`
  values and the thresholds of `lf_map` are `float` constants, embedded with the exact
  value of the `float`; a comparison of the two is exact.  `Query::avg_prob` returns a
  `float`: its quotient is rounded to single precision (`to_float`).  The declaration
  of `prob_sum_` is in `nano_fmi.hpp`, outside the sources; the sums `prob_sum_ + prob`
  of the constructors are embedded as exact sums.
* The `parents_`/`children_` pointer lists of a query are diagnostic links that no
  result depends on; they are not part of the embedded query.  The copy of a query
  built without them reads through `NULL`: the definitions ending in `_run` follow the
  insert and the search as they run and give `none` there, the definitions without the
  ending give the frontiers by value.
-/

namespace NanoFMI

/-! ## Index tables -/

/-- The member tables of a `NanoFMI` object after construction.  The class is declared
in `nano_fmi.hpp`, which is not among the sources: the members are those the
constructor fills, with the element types its assignments show. -/
structure Index where
  tally_dist : Nat
  suffix_ar : List Nat
  bwt : List Nat
  mer_f_starts : List Int
  mer_counts : List Int
  mer_tally : List (List Int)
deriving DecidableEq, Repr

/-- The loop-carried state of the single pass over the suffix array
(lines 49-70): the BWT, the running k-mer counts, the tally table and the
`tally_mod` counter. -/
structure Pass where
  bwt : List Nat
  mer_counts : List Int
  mer_tally : List (List Int)
  tally_mod : Nat
deriving DecidableEq, Repr

/-- The symbol stored in `bwt_[i]` (lines 55-58): the reference symbol before
`suffix_ar_[i]`, and for the row with `suffix_ar_[i] == 0` the symbol
`mer_seq[suffix_ar_[suffix_ar_.size()-1]]`. -/
def bwt_symbol (mer_seq suffix_ar : List Nat) (i : Nat) : Nat :=
  if suffix_ar.getD i 0 > 0 then
    mer_seq.getD (suffix_ar.getD i 0 - 1) 0
  else
    mer_seq.getD (suffix_ar.getD (suffix_ar.length - 1) 0) 0

/-- The loop `for (mer_id j = 0; j < kmer_count; j++) mer_tally_[j] = f j mer_tally_[j]`
shared by the checkpoint write (lines 65-66) and the final fill (lines 84-85). -/
def update_rows (kmer_count : Nat) (f : Nat → List Int → List Int)
    (mer_tally : List (List Int)) : List (List Int) :=
  (List.range kmer_count).foldl (fun t j => t.set j (f j (t.getD j []))) mer_tally

/-- Lines 65-66: `mer_tally_[j][b] = mer_counts_[j]` for every k-mer `j`. -/
def write_checkpoint (kmer_count : Nat) (mer_counts : List Int) (b : Nat)
    (mer_tally : List (List Int)) : List (List Int) :=
  update_rows kmer_count (fun j row => row.set b (mer_counts.getD j 0)) mer_tally

/-- One iteration of the pass (lines 52-70) for row `i`. -/
def pass_step (kmer_count : Nat) (mer_seq suffix_ar : List Nat) (tally_dist : Nat)
    (s : Pass) (i : Nat) : Pass :=
  let sym := bwt_symbol mer_seq suffix_ar i
  let counts := s.mer_counts.set sym (s.mer_counts.getD sym 0 + 1)
  { bwt := s.bwt.set i sym
    mer_counts := counts
    mer_tally :=
      if s.tally_mod = tally_dist then
        write_checkpoint kmer_count counts (i / tally_dist) s.mer_tally
      else s.mer_tally
    tally_mod := (if s.tally_mod = tally_dist then 0 else s.tally_mod) + 1 }

/-- The state before the pass: the resized, default-filled vectors of lines 39-49. -/
def pass_init (kmer_count : Nat) (mer_seq : List Nat) (tally_dist : Nat) : Pass :=
  { bwt := List.replicate mer_seq.length 0
    mer_counts := List.replicate kmer_count 0
    mer_tally := List.replicate kmer_count
      (List.replicate (mer_seq.length / tally_dist + 1) (-1))
    tally_mod := tally_dist }

/-- The state after the first `rows` iterations of the pass. -/
def run_pass (kmer_count : Nat) (mer_seq suffix_ar : List Nat) (tally_dist : Nat) :
    Nat → Pass
  | 0 => pass_init kmer_count mer_seq tally_dist
  | rows + 1 =>
    pass_step kmer_count mer_seq suffix_ar tally_dist
      (run_pass kmer_count mer_seq suffix_ar tally_dist rows) rows

/-- Lines 75-80: `mer_f_starts_[i]` starts at 1 and gains `mer_counts_[j]` for
every `j` with `compare_kmers(i, j) > 0`. -/
def f_start (kmer_count : Nat) (compare_kmers : Nat → Nat → Int)
    (mer_counts : List Int) (i : Nat) : Int :=
  (List.range kmer_count).foldl
    (fun acc j => if compare_kmers i j > 0 then acc + mer_counts.getD j 0 else acc) 1

/-- Lines 83-85: when `mer_seq.size() % tally_dist_ == 0` the last entry of every
tally row receives the final count. -/
def fill_last (kmer_count : Nat) (mer_seq : List Nat) (tally_dist : Nat)
    (mer_counts : List Int) (mer_tally : List (List Int)) : List (List Int) :=
  if mer_seq.length % tally_dist = 0 then
    update_rows kmer_count
      (fun j row => row.set (row.length - 1) (mer_counts.getD j 0)) mer_tally
  else mer_tally

/-- The constructor `NanoFMI::NanoFMI(model, mer_seq, tally_dist)`, with the model
given by `kmer_count` and `compare_kmers` and the sorted suffix array by
`suffix_ar`. -/
def build (kmer_count : Nat) (compare_kmers : Nat → Nat → Int)
    (mer_seq suffix_ar : List Nat) (tally_dist : Nat) : Index :=
  let s := run_pass kmer_count mer_seq suffix_ar tally_dist suffix_ar.length
  { tally_dist := tally_dist
    suffix_ar := suffix_ar
    bwt := s.bwt
    mer_f_starts := (List.range kmer_count).map (f_start kmer_count compare_kmers s.mer_counts)
    mer_counts := s.mer_counts
    mer_tally := fill_last kmer_count mer_seq tally_dist s.mer_counts s.mer_tally }

/-! ## Rank query -/

/-- Method `NanoFMI::tally_cp_dist`: signed distance from BWT index `i` to the nearest
checkpoint (lines 126-134). -/
def tally_cp_dist (fmi : Index) (i : Int) : Int :=
  let cp := Int.tdiv i fmi.tally_dist * fmi.tally_dist
  (if i - cp > (cp + fmi.tally_dist) - i ∧ cp + fmi.tally_dist < fmi.bwt.length then
    cp + fmi.tally_dist
  else cp) - i

/-- The loop of lines 145-147: `steps` iterations from index `j` upwards, the tally
decremented at every match. -/
def walk_up (bwt : List Nat) (c : Nat) : Nat → Int → Int → Int
  | 0, _, tally => tally
  | steps + 1, j, tally =>
    walk_up bwt c steps (j + 1) (if bwt[j.toNat]? = some c then tally - 1 else tally)

/-- The loop of lines 150-152: `steps` iterations from index `j` downwards, the
tally incremented at every match. -/
def walk_down (bwt : List Nat) (c : Nat) : Nat → Int → Int → Int
  | 0, _, tally => tally
  | steps + 1, j, tally =>
    walk_down bwt c steps (j - 1) (if bwt[j.toNat]? = some c then tally + 1 else tally)

/-- Method `NanoFMI::get_tally` (lines 138-156).  The upward loop runs `cp_dist` times and
the downward loop `-cp_dist` times. -/
def get_tally (fmi : Index) (c : Nat) (i : Int) : Int :=
  if i < 0 then -1
  else
    let cp_dist := tally_cp_dist fmi i
    let tally :=
      (fmi.mer_tally.getD c []).getD (Int.tdiv (i + cp_dist) fmi.tally_dist).toNat 0
    if cp_dist > 0 then walk_up fmi.bwt c cp_dist.toNat (i + 1) tally
    else if cp_dist < 0 then walk_down fmi.bwt c (-cp_dist).toNat i tally
    else tally

/-! ## Floating-point values

`Query::avg_prob` returns a `float` that `add_results` compares with a `double`. -/

/-- A value of a binary floating-point type: a finite rational, an infinity or a NaN. -/
inductive FloatVal where
  | finite (x : ℚ)
  | pos_inf
  | neg_inf
  | nan
deriving DecidableEq

/-- The power `2^e` for an integer exponent `e`. -/
def pow2 (e : Int) : ℚ :=
  if 0 ≤ e then ((2 ^ e.toNat : Nat) : ℚ) else 1 / ((2 ^ (-e).toNat : Nat) : ℚ)

/-- The number of halvings that bring `n` below 2, in at most `fuel` steps. -/
def log2_loop : Nat → Nat → Nat
  | 0, _ => 0
  | fuel + 1, n => if n < 2 then 0 else log2_loop fuel (n / 2) + 1

/-- The position of the leading bit of `n`. -/
def ilog2 (n : Nat) : Nat := log2_loop n n

/-- The binary exponent of a non-zero rational `x`: the `e` with
`2^e ≤ |x| < 2^(e+1)`. -/
def binade (x : ℚ) : Int :=
  if pow2 ((ilog2 x.num.natAbs : Int) - (ilog2 x.den : Int)) ≤ (if x < 0 then -x else x) then
    (ilog2 x.num.natAbs : Int) - (ilog2 x.den : Int)
  else (ilog2 x.num.natAbs : Int) - (ilog2 x.den : Int) - 1

/-- The greatest integer not above `x`. -/
def floor_rat (x : ℚ) : Int := x.num / (x.den : Int)

/-- The integer nearest to `x`, the even one of the two in a tie. -/
def round_half_even (x : ℚ) : Int :=
  if x - (floor_rat x : ℚ) < 1 / 2 then floor_rat x
  else if 1 / 2 < x - (floor_rat x : ℚ) then floor_rat x + 1
  else if floor_rat x % 2 = 0 then floor_rat x else floor_rat x + 1

/-- The spacing of the values of the format with `prec` significant bits and least
normal exponent `emin` around `x`. -/
def quantum (prec : Nat) (emin : Int) (x : ℚ) : ℚ :=
  pow2 (max (binade x) emin - ((prec : Int) - 1))

/-- Rounding to nearest, ties to even (the default mode), into the binary format with
`prec` significant bits and least normal exponent `emin`, whose finite values are below
`2^emax` in magnitude: a rounded value of binary exponent `emax` or more overflows. -/
def round_nearest (prec : Nat) (emin emax : Int) (x : ℚ) : FloatVal :=
  if x = 0 then .finite 0
  else if emax ≤ binade
      (((round_half_even (x / quantum prec emin x) : Int) : ℚ) * quantum prec emin x) then
    if 0 < x then .pos_inf else .neg_inf
  else .finite (((round_half_even (x / quantum prec emin x) : Int) : ℚ) * quantum prec emin x)

/-- The conversion to `float` (IEEE binary32). -/
def to_float (x : ℚ) : FloatVal := round_nearest 24 (-126) 128 x

/-- The conversion to `double` (IEEE binary64). -/
def to_double (x : ℚ) : FloatVal := round_nearest 53 (-1022) 1024 x

/-- The comparison `a >= b` of a floating-point value with a finite `b`; it is false
for a NaN. -/
def FloatVal.ge (a : FloatVal) (b : ℚ) : Bool :=
  match a with
  | .finite x => decide (x ≥ b)
  | .pos_inf => true
  | .neg_inf => false
  | .nan => false

/-! ## Frontier queries -/

/-- A `NanoFMI::Query`: the k-mer matched last, the interval `[start_, end_]`, the
match length, the number of stays and the summed log-probability.  The fields are
those the constructors of lines 348-428 initialise (the declaration itself is in
`nano_fmi.hpp`, not among the sources), without the two pointer lists. -/
structure Query where
  k_id_ : Nat
  start_ : Int
  end_ : Int
  match_len_ : Int
  stays_ : Int
  prob_sum_ : ℚ
deriving DecidableEq

/-- The constructor `Query(NanoFMI &fmi)` (lines 348-357): every field zero. -/
def Query.blank : Query :=
  { k_id_ := 0, start_ := 0, end_ := 0, match_len_ := 0, stays_ := 0, prob_sum_ := 0 }

/-- The initial match constructor `Query(fmi, k_id, prob)` (lines 360-369). -/
def Query.initial (fmi : Index) (k_id : Nat) (prob : ℚ) : Query :=
  { k_id_ := k_id
    start_ := fmi.mer_f_starts.getD k_id 0
    end_ := fmi.mer_f_starts.getD k_id 0 + fmi.mer_counts.getD k_id 0 - 1
    match_len_ := 1
    stays_ := 0
    prob_sum_ := prob }

/-- The "next" constructor `Query(prev, k_id, prob)` (lines 372-395). -/
def Query.next (fmi : Index) (prev : Query) (k_id : Nat) (prob : ℚ) : Query :=
  let min := get_tally fmi k_id (prev.start_ - 1)
  let max := get_tally fmi k_id prev.end_
  if min < max then
    { k_id_ := k_id
      start_ := fmi.mer_f_starts.getD k_id 0 + min
      end_ := fmi.mer_f_starts.getD k_id 0 + max - 1
      match_len_ := prev.match_len_ + 1
      stays_ := prev.stays_
      prob_sum_ := prev.prob_sum_ + prob }
  else
    { k_id_ := k_id, start_ := 0, end_ := 0, match_len_ := 0, stays_ := 0, prob_sum_ := 0 }

/-- The "stay" constructor `Query(prev, prob)` (lines 398-412). -/
def Query.stay (prev : Query) (prob : ℚ) : Query :=
  { k_id_ := prev.k_id_
    start_ := prev.start_
    end_ := prev.end_
    match_len_ := prev.match_len_
    stays_ := prev.stays_ + 1
    prob_sum_ := prev.prob_sum_ + prob }

/-- Method `Query::is_valid` (lines 457-460).  The source line reads
`stat<=end && (start_ != 0 || ... || prob_sum_ != 0;`; it is embedded as the test it
spells out, `start_ <= end_` and at least one of the five fields non-zero. -/
def Query.is_valid (q : Query) : Bool :=
  decide (q.start_ ≤ q.end_) &&
    (decide (q.start_ ≠ 0) || decide (q.end_ ≠ 0) || decide (q.match_len_ ≠ 0) ||
      decide (q.stays_ ≠ 0) || decide (q.prob_sum_ ≠ 0))

/-- Method `Query::match_len` (lines 462-464). -/
def Query.match_len (q : Query) : Int := q.match_len_

/-- Method `Query::avg_prob` (lines 466-468): the quotient `prob_sum_ / (match_len_ +
stays_)` as the `float` the method returns, rounded once.  (Were the field `prob_sum_`,
declared outside the sources, a `double`, the quotient would pass through `double`
first; that gives another `float` only for a quotient within the rounding error of a
`double` of the midpoint of two `float`s.)  A zero divisor gives an infinity of the sign
of `prob_sum_`, or a NaN for `0 / 0`. -/
def Query.avg_prob (q : Query) : FloatVal :=
  if q.match_len_ + q.stays_ = 0 then
    if 0 < q.prob_sum_ then .pos_inf else if q.prob_sum_ < 0 then .neg_inf else .nan
  else to_float (q.prob_sum_ / ((q.match_len_ + q.stays_ : Int) : ℚ))

/-- Method `Query::same_range` (lines 453-455). -/
def Query.same_range (q other : Query) : Bool :=
  decide (q.start_ = other.start_) && decide (q.end_ = other.end_) &&
    decide (q.match_len_ = other.match_len_)

/-- Method `Query::intersects` (lines 326-329), with `q.start`/`q.end` read as the
fields `q.start_`/`q.end_`: an endpoint of the receiver lies inside `q`. -/
def Query.intersects (self q : Query) : Bool :=
  (decide (self.start_ ≥ q.start_) && decide (self.start_ ≤ q.end_)) ||
    (decide (self.end_ ≥ q.start_) && decide (self.end_ ≤ q.end_))

/-- Method `Query::split_query` (lines 331-346): returns the piece of `q` left of the
receiver, and `q` itself as the source leaves it (its start moved past the receiver
when the receiver ends before `q`). -/
def Query.split_query (self q : Query) : Query × Query :=
  let left := if self.start_ > q.start_ then { q with end_ := self.start_ - 1 } else Query.blank
  let q := if self.end_ < q.end_ then { q with start_ := self.end_ + 1 } else q
  (left, q)

/-- The ordering `operator<` on queries (lines 476-484). -/
def Query.lt (q1 q2 : Query) : Bool :=
  decide (q1.start_ < q2.start_) ||
    (decide (q1.start_ = q2.start_) && decide (q1.end_ < q2.end_))

/-! ## Frontier insert

A frontier `std::set<Query>` is the list of its elements in `operator<` order. -/

/-- Insertion `std::set::insert`: the element goes to its place in the order, unless an
equivalent element (neither less than the other) is already present. -/
def set_insert : List Query → Query → List Query
  | [], q => [q]
  | x :: xs, q =>
    if x.lt q then x :: set_insert xs q
    else if q.lt x then q :: x :: xs
    else x :: xs

/-- Search `std::set::lower_bound`: the position of the first element not less than `q`. -/
def lower_bound (queries : List Query) (q : Query) : Nat :=
  (queries.takeWhile (fun x => x.lt q)).length

/-- The loop of lines 298-299: from `lb`, step forward while the element intersects. -/
def scan_end (queries : List Query) (new_qry : Query) (lb : Nat) : Nat :=
  lb + ((queries.drop lb).takeWhile (fun x => x.intersects new_qry)).length

/-- The loop of lines 302-303: from `lb`, step backward while the element before
intersects. -/
def scan_start (queries : List Query) (new_qry : Query) (lb : Nat) : Nat :=
  lb - (((queries.take lb).reverse).takeWhile (fun x => x.intersects new_qry)).length

/-- The loop of lines 311-313: every overlapping query splits `q` in turn, the left
pieces are collected and the remaining `q` is appended. -/
def split_all : List Query → Query → List Query
  | [], q => [q]
  | sq :: rest, q => (sq.split_query q).1 :: split_all rest (sq.split_query q).2

/-- The loop of lines 316-321: the valid pieces are inserted and counted. -/
def insert_valid : List Query → List Query → Int → List Query × Int
  | queries, [], count => (queries, count)
  | queries, sq :: rest, count =>
    if sq.is_valid then insert_valid (set_insert queries sq) rest (count + 1)
    else insert_valid queries rest count

/-- Method `NanoFMI::update_queries` (lines 294-324) by value: the frontier after the
insert and the returned count, the copies of the pieces taken as plain copies of their
fields (`update_queries_run` below is the method as it runs, and agrees with this
value whenever it returns).  The undeclared `q` of lines 312-313 is the parameter
`new_qry`, and `insert(*lb, new_qry)` of line 306 is the hinted insert
`insert(lb, new_qry)`. -/
def update_queries (queries : List Query) (new_qry : Query) : List Query × Int :=
  let lb := lower_bound queries new_qry
  let stop := scan_end queries new_qry lb
  let start := scan_start queries new_qry lb
  if start = stop then (set_insert queries new_qry, 1)
  else
    insert_valid queries
      (split_all ((queries.drop start).take (stop - start)) new_qry) 0

/-- The frontier after a sequence of `update_queries` calls. -/
def insert_all (queries : List Query) (inserted : List Query) : List Query :=
  inserted.foldl (fun fr q => (update_queries fr q).1) queries

/-! ### The insert as it runs

`update_queries`, `split_all` and the search built on them give the frontier by value.
The source moves the pieces through the copy constructor of `Query` (lines 415-428),
which reads the lists behind `prev.parents_` and `prev.children_`.  The local `left` of
`split_query` is built by `Query(NanoFMI &)` (lines 348-357), with both pointers `NULL`,
and stays so unless the receiver starts after `q` (lines 334-337); `push_back` of line
312 copies the returned query.  The definitions below follow the run: `none` stands for
the read through `NULL`, after which no frontier exists. -/

/-- The loop of lines 311-313 as it runs: the split by `sq` goes through when `sq`
starts after the current `q`, and reads through `NULL` when it does not. -/
def split_all_run : List Query → Query → Option (List Query)
  | [], q => some [q]
  | sq :: rest, q =>
    if sq.start_ > q.start_ then
      (split_all_run rest (sq.split_query q).2).map
        (fun pieces => (sq.split_query q).1 :: pieces)
    else none

/-- Method `NanoFMI::update_queries` (lines 294-324) as it runs. -/
def update_queries_run (queries : List Query) (new_qry : Query) :
    Option (List Query × Int) :=
  if scan_start queries new_qry (lower_bound queries new_qry)
      = scan_end queries new_qry (lower_bound queries new_qry) then
    some (set_insert queries new_qry, 1)
  else
    (split_all_run
      ((queries.drop (scan_start queries new_qry (lower_bound queries new_qry))).take
        (scan_end queries new_qry (lower_bound queries new_qry)
          - scan_start queries new_qry (lower_bound queries new_qry)))
      new_qry).map (fun pieces => insert_valid queries pieces 0)

/-- A sequence of `update_queries` calls as it runs. -/
def insert_all_run (queries : List Query) : List Query → Option (List Query)
  | [] => some queries
  | q :: rest => (update_queries_run queries q).bind (fun r => insert_all_run r.1 rest)

/-! ## Results -/

/-- Modelled from the spec: the record `NanoFMI::Result` is declared in `nano_fmi.hpp`,
which is not among the sources; its fields are the five that `add_results` assigns,
integers for the coordinates and a log-probability, as the result record of the
specification lists them; the log-probability holds the `float` of `avg_prob`. -/
structure Result where
  qry_start : Int
  qry_end : Int
  ref_start : Int
  ref_end : Int
  prob : FloatVal
deriving DecidableEq

/-- The read `fmi_.suffix_ar_[s]` of lines 442-443. -/
def suffix_at (fmi : Index) (s : Int) : Int :=
  if s < 0 then 0 else (fmi.suffix_ar.getD s.toNat 0 : Nat)

/-- The result pushed for position `s` (lines 440-445). -/
def Query.result_at (fmi : Index) (q : Query) (query_end : Int) (s : Int) : Result :=
  { qry_start := query_end - q.match_len_ - q.stays_ + 1
    qry_end := query_end
    ref_start := suffix_at fmi s
    ref_end := suffix_at fmi s + q.match_len_ - 1
    prob := q.avg_prob }

/-- The loop of lines 439-446: `iterations` pushes from position `s` upwards. -/
def add_results_loop (fmi : Index) (q : Query) (query_end : Int) :
    Nat → Int → List Result → List Result
  | 0, _, results => results
  | iterations + 1, s, results =>
    add_results_loop fmi q query_end iterations (s + 1)
      (results ++ [q.result_at fmi query_end s])

/-- Method `Query::add_results` (lines 435-451): the results vector afterwards and the
returned flag, for a finite `min_prob`.  The test of line 437 compares the `float` of
`avg_prob` with the `double` `min_prob`.  The loop `for (s = start_; s <= end_; s++)`
runs `end_ - start_ + 1` times, and not at all when that is not positive. -/
def Query.add_results (fmi : Index) (q : Query) (results : List Result)
    (query_end : Int) (min_prob : ℚ) : List Result × Bool :=
  if q.avg_prob.ge min_prob then
    (add_results_loop fmi q query_end (q.end_ - q.start_ + 1).toNat q.start_ results, true)
  else (results, false)

/-! ## Auxiliary definitions for the statements -/

/-- The number of positions `j ≤ i` with `bwt[j] = c`, counted naively. -/
def occ (bwt : List Nat) (c : Nat) (i : Nat) : Nat :=
  (bwt.take (i + 1)).count c

/-- The natural order on k-mer identifiers as a three-way comparison. -/
def nat_compare (a b : Nat) : Int :=
  if a < b then -1 else if a = b then 0 else 1

/-- The reference `acgtacgt` over the alphabet `a = 0, c = 1, g = 2, t = 3`. -/
def acgt_ref : List Nat := [0, 1, 2, 3, 0, 1, 2, 3]

/-- The suffix array of `acgtacgt` that keeps equal rotations in text order. -/
def acgt_sa : List Nat := [0, 4, 1, 5, 2, 6, 3, 7]

/-- The index of `acgtacgt` with tally distance 2. -/
def acgt_index : Index := build 4 nat_compare acgt_ref acgt_sa 2

/-- Position `p` lies in the interval of `q`. -/
def Query.covers (q : Query) (p : Int) : Prop := q.start_ ≤ p ∧ p ≤ q.end_

instance (q : Query) (p : Int) : Decidable (q.covers p) := by
  unfold Query.covers; infer_instance

/-- Two queries carry the same annotation `(k, m, s, P)`. -/
def Query.same_payload (y q : Query) : Prop :=
  y.k_id_ = q.k_id_ ∧ y.match_len_ = q.match_len_ ∧ y.stays_ = q.stays_ ∧
    y.prob_sum_ = q.prob_sum_

/-- The frontier property of the specification, for the frontier `fr` reached by
inserting the queries `inserted`: no two frontier queries share a position, and every
position of an inserted query is covered by exactly one frontier query, whose match
length is not below that of the inserted query (as it is when the survivor is the
inserted query of largest match length at that position). -/
def frontier_contract (inserted fr : List Query) : Prop :=
  (∀ x ∈ fr, ∀ y ∈ fr, x ≠ y → ¬ ∃ p, x.covers p ∧ y.covers p) ∧
  ∀ q ∈ inserted, ∀ p, q.covers p →
    ∃ x ∈ fr, x.covers p ∧ (∀ y ∈ fr, y.covers p → y = x) ∧ q.match_len_ ≤ x.match_len_

/-- The first `k` symbols written to the BWT. -/
def syms (mer_seq suffix_ar : List Nat) (k : Nat) : List Nat :=
  (List.range k).map (bwt_symbol mer_seq suffix_ar)

/-- Occurrences of `c` among the BWT positions below `m`. -/
def occ_lt (bwt : List Nat) (c : Nat) (m : Nat) : Nat :=
  (bwt.take m).count c

/-- The invariant of the construction pass after `k` rows have been processed. -/
structure PassInv (kmer_count : Nat) (mer_seq suffix_ar : List Nat) (tally_dist : Nat)
    (k : Nat) (s : Pass) : Prop where
  bwt_len : s.bwt.length = mer_seq.length
  bwt_get : ∀ j, j < k → s.bwt[j]? = some (bwt_symbol mer_seq suffix_ar j)
  counts : ∀ c, c < kmer_count →
    s.mer_counts[c]? = some (((syms mer_seq suffix_ar k).count c : Nat) : Int)
  tally : ∀ c, c < kmer_count → ∃ row, s.mer_tally[c]? = some row ∧
    row.length = mer_seq.length / tally_dist + 1 ∧
    ∀ b, b * tally_dist < k →
      row[b]? = some (((syms mer_seq suffix_ar (b * tally_dist + 1)).count c : Nat) : Int)
  mod_eq : s.tally_mod % tally_dist = k % tally_dist
  mod_pos : 1 ≤ s.tally_mod
  mod_le : s.tally_mod ≤ tally_dist

/-! ## Suffix comparator -/

/-- The loop of `NanoFMI::operator()` (lines 94-104): `remaining` iterations from offset
`i`.  Both symbols are read with the bounds-checked `at`; `none` stands for the
`std::out_of_range` it throws when `rot1 + i` or `rot2 + i` is past the end. -/
def compare_from (compare_kmers : Nat → Nat → Int) (mer_seq : List Nat) (rot1 rot2 : Nat) :
    Nat → Nat → Option Bool
  | 0, _ => some false
  | remaining + 1, i =>
    match mer_seq[rot1 + i]?, mer_seq[rot2 + i]? with
    | some a, some b =>
      if compare_kmers a b = 0 then
        compare_from compare_kmers mer_seq rot1 rot2 remaining (i + 1)
      else if compare_kmers a b < 0 then some true
      else some false
    | _, _ => none

/-- Method `NanoFMI::operator()` (lines 91-107), the comparator handed to `std::sort`:
the loop runs over `i = 0 .. mer_seq.size() - 1`. -/
def suffix_less (compare_kmers : Nat → Nat → Int) (mer_seq : List Nat) (rot1 rot2 : Nat) :
    Option Bool :=
  compare_from compare_kmers mer_seq rot1 rot2 mer_seq.length 0

/-- The comparison the specification words: the rotations of `mer_seq` starting at
`rot1` and `rot2` are compared symbol by symbol over one full turn, indices wrapping to
0 past the end; `remaining` symbols are left to compare from offset `i`. -/
def rotation_less_from (compare_kmers : Nat → Nat → Int) (mer_seq : List Nat)
    (rot1 rot2 : Nat) : Nat → Nat → Bool
  | 0, _ => false
  | remaining + 1, i =>
    if compare_kmers (mer_seq.getD ((rot1 + i) % mer_seq.length) 0)
        (mer_seq.getD ((rot2 + i) % mer_seq.length) 0) = 0 then
      rotation_less_from compare_kmers mer_seq rot1 rot2 remaining (i + 1)
    else decide (compare_kmers (mer_seq.getD ((rot1 + i) % mer_seq.length) 0)
        (mer_seq.getD ((rot2 + i) % mer_seq.length) 0) < 0)

/-- The cyclic comparison of the specification over a full turn. -/
def rotation_less (compare_kmers : Nat → Nat → Int) (mer_seq : List Nat) (rot1 rot2 : Nat) :
    Bool :=
  rotation_less_from compare_kmers mer_seq rot1 rot2 mer_seq.length 0

/-! ## The constructor as a fallible operation -/

/-- The error kinds a builder could report. -/
inductive BuildError where
  | InvalidInput
deriving DecidableEq, Repr

/-- The constructor body after the sort (lines 38-87) as the caller sees it.  It holds
no check of `mer_seq` or `tally_dist` and no `throw`: whenever it is defined it returns
normally with the tables of `build`.  (For `tally_dist = 0` the divisions of lines 45,
66 and 83 are undefined in C++; the statements are about `tally_dist ≥ 1`.) -/
def construct (kmer_count : Nat) (compare_kmers : Nat → Nat → Int)
    (mer_seq suffix_ar : List Nat) (tally_dist : Nat) : Except BuildError Index :=
  Except.ok (build kmer_count compare_kmers mer_seq suffix_ar tally_dist)

/-! ## The sort of the constructor

Line 33 sorts the starts `0 .. n-1` with `std::sort` and the comparator `operator()`.
The library (libstdc++) sorts at most 16 elements by straight insertion
(`__insertion_sort`); the definitions follow that loop, a throwing comparison ending the
sort.  Whatever the library, a sort has to compare two starts that end up next to each
other. -/

/-- The loop `__unguarded_linear_insert`: `val` moves down past the elements it is less
than.  The sorted prefix is given from its last element backward; its first element
stops the loop, `val` being not less than it (`insertion_step`). -/
def linear_insert (less : Nat → Nat → Option Bool) (val : Nat) :
    List Nat → Option (List Nat)
  | [] => some [val]
  | x :: rest =>
    match less val x with
    | none => none
    | some true => (linear_insert less val rest).map (fun l => x :: l)
    | some false => some (val :: x :: rest)

/-- One round of `__insertion_sort`: `val` is compared with the first element and goes
to the front when it is less; otherwise it is inserted linearly from the back. -/
def insertion_step (less : Nat → Nat → Option Bool) (sorted_rev : List Nat) (val : Nat) :
    Option (List Nat) :=
  match sorted_rev.getLast? with
  | none => some [val]
  | some first =>
    match less val first with
    | none => none
    | some true => some (sorted_rev ++ [val])
    | some false => linear_insert less val sorted_rev

/-- The insertion sort of the elements in the order given. -/
def insertion_sort (less : Nat → Nat → Option Bool) : List Nat → Option (List Nat)
  | [] => some []
  | x :: rest =>
    (rest.foldl (fun acc val => acc.bind (fun sorted_rev => insertion_step less sorted_rev val))
      (some [x])).map List.reverse

/-- Lines 26-34: the suffix array the sort leaves, for a reference of at most 16
symbols. -/
def sort_suffixes (compare_kmers : Nat → Nat → Int) (mer_seq : List Nat) :
    Option (List Nat) :=
  insertion_sort (suffix_less compare_kmers mer_seq) (List.range mer_seq.length)

/-- The constructor `NanoFMI::NanoFMI` (lines 15-87) from the reference alone, for a
reference of at most 16 symbols: the sort, then the tables. -/
def construct_from_reference (kmer_count : Nat) (compare_kmers : Nat → Nat → Int)
    (mer_seq : List Nat) (tally_dist : Nat) : Option Index :=
  (sort_suffixes compare_kmers mer_seq).map
    (fun suffix_ar => build kmer_count compare_kmers mer_seq suffix_ar tally_dist)

/-! ## Rank query cost -/

/-- The number of `bwt_` entries `get_tally` reads (lines 144-153): one per iteration of
the loop it runs, `cp_dist` iterations upwards or `-cp_dist` downwards, none for
`i < 0`. -/
def get_tally_reads (fmi : Index) (i : Int) : Nat :=
  if i < 0 then 0
  else if tally_cp_dist fmi i > 0 then (tally_cp_dist fmi i).toNat
  else if tally_cp_dist fmi i < 0 then (-(tally_cp_dist fmi i)).toNat
  else 0

/-! ## Seed search (`lf_map`)

The model (`KmerModel`) and the events are outside the sources.  The table
`event_probs[e][k]` of lines 175-183 is the argument `ep`, the neighbour range of
`get_neighbors` is the list `get_neighbors k`, and `stay_prob i` is the value
`get_stay_prob(events[i], events[i+1])` would return: a probability between 0 and 1/2,
the upper tail of a Student-t distribution at `|t|` (lines 110-123).  The `stay` of the
specification is its logarithm. -/

/-- The threshold `float EVENT_THRESH = -9.2103` of line 168: the `float` nearest to
`-9.2103`, which is `-2414425 / 2^18`. -/
def EVENT_THRESH : ℚ := -2414425 / 262144

/-- The threshold `float SEED_THRESH = -3.75` of line 169, a `float` itself. -/
def SEED_THRESH : ℚ := -375 / 100

/-- The lower bound `2226` of the sweep over seed endpoints (line 195). -/
def SEED_END_MIN : Nat := 2226

/-- The flag `stay` of lines 220-221.  Line 220, which compares
`get_stay_prob(events[i], events[i+1])` with `STAY_THRESH`, is commented out and line
221 sets the flag to `true`, whatever the stay probability of the two events. -/
def stay_allowed (_stay_prob : ℚ) : Bool := true

/-- The state one backward step works on: the frontier `*next_queries`, the set
`finished` and the flag `mer_matched`. -/
structure Search where
  next : List Query
  finished : List Query
  mer_matched : Bool

/-- Lines 225-226: the stay query of `pq` is handed to `update_queries` when `stay`
holds and the emission of `pq`'s k-mer passes `EVENT_THRESH`. -/
def stay_branch (stay : Bool) (ep_i : Nat → ℚ) (s : Search) (pq : Query) : Search :=
  if stay && decide (ep_i pq.k_id_ ≥ EVENT_THRESH) then
    { s with next := (update_queries s.next (Query.stay pq (ep_i pq.k_id_))).1 }
  else s

/-- Lines 232-249, the body of the loop over the neighbours of `pq`, for neighbour
`n`. -/
def match_branch (fmi : Index) (ep_i : Nat → ℚ) (seed_len : Int) (pq : Query)
    (s : Search) (n : Nat) : Search :=
  if ep_i n ≥ EVENT_THRESH then
    if (Query.next fmi pq n (ep_i n)).is_valid then
      if (Query.next fmi pq n (ep_i n)).match_len < seed_len then
        { s with
          next := (update_queries s.next (Query.next fmi pq n (ep_i n))).1
          mer_matched := true }
      else { s with finished := set_insert s.finished (Query.next fmi pq n (ep_i n)) }
    else s
  else s

/-- Lines 223-252, the body of the loop over `*prev_queries`, for the query `pq`. -/
def expand_query (fmi : Index) (get_neighbors : Nat → List Nat) (stay : Bool)
    (ep_i : Nat → ℚ) (seed_len : Int) (s : Search) (pq : Query) : Search :=
  (get_neighbors pq.k_id_).foldl (match_branch fmi ep_i seed_len pq)
    (stay_branch stay ep_i s pq)

/-- The loop `while (i >= 0 && mer_matched)` of lines 211-259; the fuel is `i + 1`.
The iterator `prev_queries` is set before the loop (line 207) and never advanced, so
every iteration expands the same frontier `prev` into the same frontier `next`. -/
def extend_loop (fmi : Index) (get_neighbors : Nat → List Nat) (ep : Nat → Nat → ℚ)
    (stay_prob : Nat → ℚ) (seed_len : Int) (prev : List Query) : Nat → Search → Search
  | 0, s => s
  | i + 1, s =>
    if s.mer_matched then
      if (prev.foldl
          (expand_query fmi get_neighbors (stay_allowed (stay_prob i)) (ep i) seed_len)
          { s with mer_matched := false }).mer_matched then
        extend_loop fmi get_neighbors ep stay_prob seed_len prev i
          (prev.foldl
            (expand_query fmi get_neighbors (stay_allowed (stay_prob i)) (ep i) seed_len)
            { s with mer_matched := false })
      else
        prev.foldl
          (expand_query fmi get_neighbors (stay_allowed (stay_prob i)) (ep i) seed_len)
          { s with mer_matched := false }
    else s

/-- The loop of lines 197-202: for every k-mer whose emission in the row `ep_row` passes
`EVENT_THRESH`, the initial query is handed to `update_queries`. -/
def seed_frontier (fmi : Index) (kmer_count : Nat) (ep_row : Nat → ℚ)
    (frontier : List Query) : List Query :=
  (List.range kmer_count).foldl
    (fun fr k =>
      if ep_row k ≥ EVENT_THRESH then (update_queries fr (Query.initial fmi k (ep_row k))).1
      else fr)
    frontier

/-- The containers `lf_map` keeps across seed endpoints: `queries.back()`, the frontier
in front of it (pushed, empty, the first time the loop needs it) and `finished`. -/
structure Frontiers where
  back : List Query
  next : List Query
  finished : List Query

/-- The body of the sweep (lines 197-259) for the endpoint `seed_end`: the seeding reads
the row `event_probs[map_start]`, the backward loop starts at `i = seed_end - 1`. -/
def sweep_step (fmi : Index) (kmer_count : Nat) (get_neighbors : Nat → List Nat)
    (ep : Nat → Nat → ℚ) (stay_prob : Nat → ℚ) (map_start : Nat) (seed_len : Int)
    (st : Frontiers) (seed_end : Nat) : Frontiers :=
  { back := seed_frontier fmi kmer_count (ep map_start) st.back
    next := (extend_loop fmi get_neighbors ep stay_prob seed_len
      (seed_frontier fmi kmer_count (ep map_start) st.back) seed_end
      { next := st.next, finished := st.finished, mer_matched := true }).next
    finished := (extend_loop fmi get_neighbors ep stay_prob seed_len
      (seed_frontier fmi kmer_count (ep map_start) st.back) seed_end
      { next := st.next, finished := st.finished, mer_matched := true }).finished }

/-- The sweep `for (seed_end = map_start; seed_end >= 2226; seed_end--)` of line 195:
`count` iterations from `seed_end` downwards. -/
def sweep_loop (fmi : Index) (kmer_count : Nat) (get_neighbors : Nat → List Nat)
    (ep : Nat → Nat → ℚ) (stay_prob : Nat → ℚ) (map_start : Nat) (seed_len : Int) :
    Nat → Nat → Frontiers → Frontiers
  | 0, _, st => st
  | count + 1, seed_end, st =>
    sweep_loop fmi kmer_count get_neighbors ep stay_prob map_start seed_len count
      (seed_end - 1)
      (sweep_step fmi kmer_count get_neighbors ep stay_prob map_start seed_len st seed_end)

/-- The search part of `lf_map` (lines 187-262): the containers after the sweep, which
runs for `seed_end = map_start, ..., 2226`. -/
def lf_search (fmi : Index) (kmer_count : Nat) (get_neighbors : Nat → List Nat)
    (ep : Nat → Nat → ℚ) (stay_prob : Nat → ℚ) (map_start : Nat) (seed_len : Int) :
    Frontiers :=
  sweep_loop fmi kmer_count get_neighbors ep stay_prob map_start seed_len
    (map_start + 1 - SEED_END_MIN) map_start { back := [], next := [], finished := [] }

/-- The loop of lines 267-273 over `finished`: a query adds its results unless it has the
range of the query before it. -/
def emit_results (fmi : Index) (map_start : Int) :
    Option Query → List Query → List Result → List Result
  | _, [], results => results
  | none, qry :: rest, results =>
    emit_results fmi map_start (some qry) rest
      (qry.add_results fmi results map_start SEED_THRESH).1
  | some prev, qry :: rest, results =>
    emit_results fmi map_start (some qry) rest
      (if qry.same_range prev then results
       else (qry.add_results fmi results map_start SEED_THRESH).1)

/-- Method `NanoFMI::lf_map` (lines 160-292). -/
def lf_map (fmi : Index) (kmer_count : Nat) (get_neighbors : Nat → List Nat)
    (ep : Nat → Nat → ℚ) (stay_prob : Nat → ℚ) (map_start : Nat) (seed_len : Int) :
    List Result :=
  emit_results fmi (map_start : Int) none
    (lf_search fmi kmer_count get_neighbors ep stay_prob map_start seed_len).finished []

/-! ### The search as it runs

The search with every insert taken as it runs (`update_queries_run`): `none` when an
insert reads through `NULL`. -/

/-- Lines 225-226 as they run. -/
def stay_branch_run (stay : Bool) (ep_i : Nat → ℚ) (s : Search) (pq : Query) :
    Option Search :=
  if stay && decide (ep_i pq.k_id_ ≥ EVENT_THRESH) then
    (update_queries_run s.next (Query.stay pq (ep_i pq.k_id_))).map
      (fun r => { s with next := r.1 })
  else some s

/-- Lines 232-249 as they run, for neighbour `n`. -/
def match_branch_run (fmi : Index) (ep_i : Nat → ℚ) (seed_len : Int) (pq : Query)
    (s : Search) (n : Nat) : Option Search :=
  if ep_i n ≥ EVENT_THRESH then
    if (Query.next fmi pq n (ep_i n)).is_valid then
      if (Query.next fmi pq n (ep_i n)).match_len < seed_len then
        (update_queries_run s.next (Query.next fmi pq n (ep_i n))).map
          (fun r => { s with next := r.1, mer_matched := true })
      else some { s with finished := set_insert s.finished (Query.next fmi pq n (ep_i n)) }
    else some s
  else some s

/-- Lines 223-252 as they run, for the query `pq`. -/
def expand_query_run (fmi : Index) (get_neighbors : Nat → List Nat) (stay : Bool)
    (ep_i : Nat → ℚ) (seed_len : Int) (s : Search) (pq : Query) : Option Search :=
  (get_neighbors pq.k_id_).foldl
    (fun acc n => acc.bind (fun s1 => match_branch_run fmi ep_i seed_len pq s1 n))
    (stay_branch_run stay ep_i s pq)

/-- The loop over `*prev_queries` (lines 223-252) as it runs. -/
def expand_all_run (fmi : Index) (get_neighbors : Nat → List Nat) (stay : Bool)
    (ep_i : Nat → ℚ) (seed_len : Int) (prev : List Query) (s : Search) : Option Search :=
  prev.foldl
    (fun acc pq => acc.bind (fun s1 => expand_query_run fmi get_neighbors stay ep_i seed_len s1 pq))
    (some s)

/-- The loop of lines 211-259 as it runs; the fuel is `i + 1`. -/
def extend_loop_run (fmi : Index) (get_neighbors : Nat → List Nat) (ep : Nat → Nat → ℚ)
    (stay_prob : Nat → ℚ) (seed_len : Int) (prev : List Query) :
    Nat → Search → Option Search
  | 0, s => some s
  | i + 1, s =>
    if s.mer_matched then
      (expand_all_run fmi get_neighbors (stay_allowed (stay_prob i)) (ep i) seed_len prev
        { s with mer_matched := false }).bind
        (fun s1 =>
          if s1.mer_matched then
            extend_loop_run fmi get_neighbors ep stay_prob seed_len prev i s1
          else some s1)
    else some s

/-- The seeding loop of lines 197-202 as it runs. -/
def seed_frontier_run (fmi : Index) (kmer_count : Nat) (ep_row : Nat → ℚ)
    (frontier : List Query) : Option (List Query) :=
  (List.range kmer_count).foldl
    (fun acc k => acc.bind (fun fr =>
      if ep_row k ≥ EVENT_THRESH then
        (update_queries_run fr (Query.initial fmi k (ep_row k))).map (fun r => r.1)
      else some fr))
    (some frontier)

/-- The body of the sweep (lines 197-259) as it runs. -/
def sweep_step_run (fmi : Index) (kmer_count : Nat) (get_neighbors : Nat → List Nat)
    (ep : Nat → Nat → ℚ) (stay_prob : Nat → ℚ) (map_start : Nat) (seed_len : Int)
    (st : Frontiers) (seed_end : Nat) : Option Frontiers :=
  (seed_frontier_run fmi kmer_count (ep map_start) st.back).bind (fun back =>
    (extend_loop_run fmi get_neighbors ep stay_prob seed_len back seed_end
      { next := st.next, finished := st.finished, mer_matched := true }).map
      (fun s => { back := back, next := s.next, finished := s.finished }))

/-- The sweep of line 195 as it runs: `count` iterations from `seed_end` downwards. -/
def sweep_loop_run (fmi : Index) (kmer_count : Nat) (get_neighbors : Nat → List Nat)
    (ep : Nat → Nat → ℚ) (stay_prob : Nat → ℚ) (map_start : Nat) (seed_len : Int) :
    Nat → Nat → Frontiers → Option Frontiers
  | 0, _, st => some st
  | count + 1, seed_end, st =>
    (sweep_step_run fmi kmer_count get_neighbors ep stay_prob map_start seed_len st
      seed_end).bind
      (fun st1 =>
        sweep_loop_run fmi kmer_count get_neighbors ep stay_prob map_start seed_len count
          (seed_end - 1) st1)

/-- The search part of `lf_map` (lines 187-262) as it runs. -/
def lf_search_run (fmi : Index) (kmer_count : Nat) (get_neighbors : Nat → List Nat)
    (ep : Nat → Nat → ℚ) (stay_prob : Nat → ℚ) (map_start : Nat) (seed_len : Int) :
    Option Frontiers :=
  sweep_loop_run fmi kmer_count get_neighbors ep stay_prob map_start seed_len
    (map_start + 1 - SEED_END_MIN) map_start { back := [], next := [], finished := [] }

/-- The index of `acgt` with tally distance 1. -/
def acgt4_index : Index := build 4 nat_compare [0, 1, 2, 3] [0, 1, 2, 3] 1

/-- Emissions of events that each match one symbol: event `e` matches symbol `e mod 4`
with log-probability 0 and every other symbol with `-100`. -/
def unique_ep (e k : Nat) : ℚ := if k = e % 4 then 0 else -100

/-- Neighbours over the four-letter alphabet: every symbol can follow every symbol. -/
def all_symbols (_k : Nat) : List Nat := [0, 1, 2, 3]

/-- Emissions where the events 2225 and 2226 match `g` only and no other event matches
any symbol. -/
def ep_g_late (e k : Nat) : ℚ := if 2225 ≤ e ∧ k = 2 then 0 else -100

/-- Emissions where event 2227 matches `g` only, event 2226 matches `a` only and no
other event matches any symbol. -/
def ep_two_rows (e k : Nat) : ℚ :=
  if (e = 2227 ∧ k = 2) ∨ (e = 2226 ∧ k = 0) then 0 else -100

/-- The frontier queries of a search with target `seed_len` have a match length from 1
up to `seed_len - 1`, the finished ones exactly `seed_len`. -/
def Search.bounded (seed_len : Int) (s : Search) : Prop :=
  (∀ x ∈ s.next, 1 ≤ x.match_len_ ∧ x.match_len_ < seed_len) ∧
    ∀ x ∈ s.finished, x.match_len_ = seed_len

/-- The same bounds for the containers kept across seed endpoints. -/
def Frontiers.bounded (seed_len : Int) (st : Frontiers) : Prop :=
  (∀ x ∈ st.back, 1 ≤ x.match_len_ ∧ x.match_len_ < seed_len) ∧
    (∀ x ∈ st.next, 1 ≤ x.match_len_ ∧ x.match_len_ < seed_len) ∧
    ∀ x ∈ st.finished, x.match_len_ = seed_len

/-- The shape every query of a search has: the interval starts at row 1 or later and is
at most empty (`l ≤ r + 1`), the match length is at least 1, the stay count at least 0,
and the interval is non-empty when the k-mer of the query occurs in the reference or the
query was built by the match constructor (`m ≥ 2`). -/
def Query.grounded (fmi : Index) (q : Query) : Prop :=
  1 ≤ q.start_ ∧ q.start_ ≤ q.end_ + 1 ∧ 1 ≤ q.match_len_ ∧ 0 ≤ q.stays_ ∧
    (1 ≤ fmi.mer_counts.getD q.k_id_ 0 ∨ 2 ≤ q.match_len_ → q.start_ ≤ q.end_)

/-- The frontier queries of a step are grounded, the finished ones moreover non-empty. -/
def Search.grounded (fmi : Index) (s : Search) : Prop :=
  (∀ x ∈ s.next, x.grounded fmi) ∧ ∀ x ∈ s.finished, x.grounded fmi ∧ x.start_ ≤ x.end_

/-- The same for the containers kept across seed endpoints. -/
def Frontiers.grounded (fmi : Index) (st : Frontiers) : Prop :=
  (∀ x ∈ st.back, x.grounded fmi) ∧ (∀ x ∈ st.next, x.grounded fmi) ∧
    ∀ x ∈ st.finished, x.grounded fmi ∧ x.start_ ≤ x.end_

/-! ## Lemmas on the construction pass -/

theorem occ_eq_occ_lt (bwt : List Nat) (c i : Nat) : occ bwt c i = occ_lt bwt c (i + 1) := rfl

theorem occ_lt_succ (bwt : List Nat) (c j : Nat) :
    occ_lt bwt c (j + 1) = occ_lt bwt c j + (if bwt[j]? = some c then 1 else 0) := by
  unfold occ_lt
  rw [List.take_succ, List.count_append]
  cases h : bwt[j]? with
  | none => simp
  | some x => simp [List.count_singleton]

theorem occ_lt_mono (bwt : List Nat) (c : Nat) {a b : Nat} (h : a ≤ b) :
    occ_lt bwt c a ≤ occ_lt bwt c b := by
  induction h with
  | refl => exact Nat.le_refl _
  | step _ ih => rw [occ_lt_succ]; omega

theorem syms_succ (mer_seq suffix_ar : List Nat) (k : Nat) :
    syms mer_seq suffix_ar (k + 1)
      = syms mer_seq suffix_ar k ++ [bwt_symbol mer_seq suffix_ar k] := by
  simp [syms, List.range_succ]

theorem syms_count_succ (mer_seq suffix_ar : List Nat) (c k : Nat) :
    (syms mer_seq suffix_ar (k + 1)).count c
      = (syms mer_seq suffix_ar k).count c
        + (if bwt_symbol mer_seq suffix_ar k = c then 1 else 0) := by
  rw [syms_succ, List.count_append, List.count_singleton]
  simp

theorem take_syms (mer_seq suffix_ar : List Nat) {m n : Nat} (h : m ≤ n) :
    (syms mer_seq suffix_ar n).take m = syms mer_seq suffix_ar m := by
  unfold syms
  rw [← List.map_take, List.take_range, Nat.min_eq_left h]

theorem update_rows_getElem? (f : Nat → List Int → List Int) (t : List (List Int))
    (c : Nat) (k : Nat) :
    (update_rows k f t)[c]? = if c < k then (t[c]?).map (f c) else t[c]? := by
  induction k generalizing c with
  | zero => simp [update_rows]
  | succ k ih =>
    have hstep : update_rows (k + 1) f t
        = (update_rows k f t).set k (f k ((update_rows k f t).getD k [])) := by
      simp [update_rows, List.range_succ, List.foldl_append]
    have hk : (update_rows k f t)[k]? = t[k]? := by
      have := ih k
      simpa using this
    rw [hstep, List.getElem?_set]
    by_cases hkc : k = c
    · subst hkc
      rw [List.getD_eq_getElem?_getD]
      simp only [if_true, Nat.lt_succ_self]
      cases ht : t[k]? with
      | none =>
        have hlen : ¬ k < (update_rows k f t).length := by
          intro hlt
          have := List.getElem?_eq_getElem hlt
          rw [hk, ht] at this
          cases this
        simp [hlen]
      | some row =>
        have hlen : k < (update_rows k f t).length := by
          by_contra hge
          have := List.getElem?_eq_none (Nat.le_of_not_lt hge)
          rw [hk, ht] at this
          cases this
        simp [hlen, hk, ht]
    · rw [if_neg hkc, ih]
      by_cases hc : c < k
      · have : c < k + 1 := by omega
        simp [hc, this]
      · have : ¬ c < k + 1 := by omega
        simp [hc, this]

theorem walk_up_eq (bwt : List Nat) (c : Nat) (steps j : Nat) (t : Int) :
    walk_up bwt c steps (j : Int) t
      = t - ((occ_lt bwt c (j + steps) : Int) - (occ_lt bwt c j : Int)) := by
  induction steps generalizing j t with
  | zero => simp [walk_up]
  | succ s ih =>
    have hj : ((j : Int) + 1) = ((j + 1 : Nat) : Int) := by push_cast; rfl
    rw [walk_up, hj, ih, Int.toNat_natCast]
    have h1 := occ_lt_succ bwt c j
    have h2 : j + 1 + s = j + (s + 1) := by omega
    rw [h2]
    split
    · simp_all; omega
    · simp_all

theorem walk_down_eq (bwt : List Nat) (c : Nat) (steps m : Nat) (t : Int)
    (h : steps ≤ m) :
    walk_down bwt c steps ((m : Int) - 1) t
      = t + ((occ_lt bwt c m : Int) - (occ_lt bwt c (m - steps) : Int)) := by
  induction steps generalizing m t with
  | zero => simp [walk_down]
  | succ s ih =>
    obtain ⟨m, rfl⟩ : ∃ p, m = p + 1 := ⟨m - 1, by omega⟩
    have hidx : (((m + 1 : Nat) : Int) - 1) = (m : Int) := by push_cast; omega
    have hnext : ((m : Int) - 1) = ((m : Nat) : Int) - 1 := rfl
    rw [walk_down, hidx, Int.toNat_natCast, ih m _ (by omega)]
    have h1 := occ_lt_succ bwt c m
    have h2 : m + 1 - (s + 1) = m - s := by omega
    rw [h2]
    split
    · simp_all; omega
    · simp_all

theorem passInv_init (kmer_count : Nat) (mer_seq suffix_ar : List Nat) (tally_dist : Nat)
    (hD : 1 ≤ tally_dist) :
    PassInv kmer_count mer_seq suffix_ar tally_dist 0
      (pass_init kmer_count mer_seq tally_dist) where
  bwt_len := by simp [pass_init]
  bwt_get := by intro j hj; omega
  counts := by
    intro c hc
    simp [pass_init, syms, List.getElem?_replicate, hc]
  tally := by
    intro c hc
    refine ⟨List.replicate (mer_seq.length / tally_dist + 1) (-1), ?_, ?_, ?_⟩
    · simp [pass_init, List.getElem?_replicate, hc]
    · simp
    · intro b hb; omega
  mod_eq := by simp [pass_init]
  mod_pos := hD
  mod_le := Nat.le_refl _

theorem checkpoint_cond {D tm k : Nat} (h1 : tm % D = k % D)
    (h2 : 1 ≤ tm) (h3 : tm ≤ D) : tm = D ↔ k % D = 0 := by
  constructor
  · intro h
    rw [← h1, h, Nat.mod_self]
  · intro h
    by_contra hne
    have hlt : tm < D := by omega
    rw [Nat.mod_eq_of_lt hlt] at h1
    omega

theorem passInv_step (kmer_count : Nat) (mer_seq suffix_ar : List Nat) (tally_dist : Nat)
    (hD : 1 ≤ tally_dist) (k : Nat) (hk : k < mer_seq.length) (s : Pass)
    (inv : PassInv kmer_count mer_seq suffix_ar tally_dist k s) :
    PassInv kmer_count mer_seq suffix_ar tally_dist (k + 1)
      (pass_step kmer_count mer_seq suffix_ar tally_dist s k) := by
  have hcond := checkpoint_cond inv.mod_eq inv.mod_pos inv.mod_le
  have hcounts : ∀ c, c < kmer_count →
      (s.mer_counts.set (bwt_symbol mer_seq suffix_ar k)
        (s.mer_counts.getD (bwt_symbol mer_seq suffix_ar k) 0 + 1))[c]?
        = some (((syms mer_seq suffix_ar (k + 1)).count c : Nat) : Int) := by
    intro c hc
    have hget := inv.counts c hc
    have hlen : c < s.mer_counts.length := by
      by_contra hge
      rw [List.getElem?_eq_none (Nat.le_of_not_lt hge)] at hget
      cases hget
    rw [List.getElem?_set, syms_count_succ]
    by_cases hsym : bwt_symbol mer_seq suffix_ar k = c
    · rw [hsym, List.getD_eq_getElem?_getD, hget]
      simp [hlen]
    · simp [hsym, hget]
  refine ⟨?_, ?_, hcounts, ?_, ?_, ?_, ?_⟩
  · simp [pass_step, inv.bwt_len]
  · intro j hj
    simp only [pass_step]
    rw [List.getElem?_set]
    by_cases hjk : k = j
    · subst hjk
      simp [inv.bwt_len, hk]
    · rw [if_neg hjk]
      exact inv.bwt_get j (by omega)
  · intro c hc
    obtain ⟨row, hrow, hrlen, hrget⟩ := inv.tally c hc
    by_cases hw : s.tally_mod = tally_dist
    · have hmod : k % tally_dist = 0 := hcond.mp hw
      have hmul : k / tally_dist * tally_dist = k :=
        Nat.div_mul_cancel (Nat.dvd_of_mod_eq_zero hmod)
      refine ⟨row.set (k / tally_dist)
        (((syms mer_seq suffix_ar (k + 1)).count c : Nat) : Int), ?_, ?_, ?_⟩
      · simp only [pass_step, if_pos hw, write_checkpoint]
        rw [update_rows_getElem?, if_pos hc, hrow, Option.map_some']
        rw [List.getD_eq_getElem?_getD, hcounts c hc]
        rfl
      · simp [hrlen]
      · intro b hb
        rw [List.getElem?_set]
        by_cases hbk : k / tally_dist = b
        · have hdiv : k / tally_dist ≤ mer_seq.length / tally_dist :=
            Nat.div_le_div_right (Nat.le_of_lt hk)
          rw [if_pos hbk, if_pos (by omega), ← hbk, hmul]
        · rw [if_neg hbk]
          apply hrget
          have hne : b * tally_dist ≠ k := by
            intro heq
            apply hbk
            rw [← heq, Nat.mul_div_cancel _ (by omega)]
          omega
    · have hmod : k % tally_dist ≠ 0 := fun h => hw (hcond.mpr h)
      refine ⟨row, ?_, hrlen, ?_⟩
      · simp only [pass_step, if_neg hw]
        exact hrow
      · intro b hb
        apply hrget
        have hne : b * tally_dist ≠ k := by
          intro heq
          apply hmod
          rw [← heq, Nat.mul_mod_left]
        omega
  · simp only [pass_step]
    by_cases hw : s.tally_mod = tally_dist
    · have hmod : k % tally_dist = 0 := hcond.mp hw
      rw [if_pos hw, Nat.add_mod k 1, hmod]
      simp
    · rw [if_neg hw, Nat.add_mod s.tally_mod 1, Nat.add_mod k 1, inv.mod_eq]
  · simp [pass_step]
  · simp only [pass_step]
    have := inv.mod_le
    split <;> omega

theorem passInv_run (kmer_count : Nat) (mer_seq suffix_ar : List Nat) (tally_dist : Nat)
    (hD : 1 ≤ tally_dist) (k : Nat) (hk : k ≤ mer_seq.length) :
    PassInv kmer_count mer_seq suffix_ar tally_dist k
      (run_pass kmer_count mer_seq suffix_ar tally_dist k) := by
  induction k with
  | zero => exact passInv_init kmer_count mer_seq suffix_ar tally_dist hD
  | succ k ih =>
    exact passInv_step kmer_count mer_seq suffix_ar tally_dist hD k (by omega) _
      (ih (by omega))

/-! ## The built tables -/

theorem update_rows_length (f : Nat → List Int → List Int) (t : List (List Int))
    (k : Nat) : (update_rows k f t).length = t.length := by
  induction k with
  | zero => simp [update_rows]
  | succ k ih =>
    have hstep : update_rows (k + 1) f t
        = (update_rows k f t).set k (f k ((update_rows k f t).getD k [])) := by
      simp [update_rows, List.range_succ, List.foldl_append]
    rw [hstep, List.length_set, ih]

theorem run_pass_tally_length (kmer_count : Nat) (mer_seq suffix_ar : List Nat)
    (tally_dist : Nat) (k : Nat) :
    (run_pass kmer_count mer_seq suffix_ar tally_dist k).mer_tally.length = kmer_count := by
  induction k with
  | zero => simp [run_pass, pass_init]
  | succ k ih =>
    simp only [run_pass, pass_step]
    split
    · rw [write_checkpoint, update_rows_length, ih]
    · exact ih

theorem build_bwt (kmer_count : Nat) (compare_kmers : Nat → Nat → Int)
    (mer_seq suffix_ar : List Nat) (tally_dist : Nat) (hD : 1 ≤ tally_dist)
    (hSA : suffix_ar.length = mer_seq.length) :
    (build kmer_count compare_kmers mer_seq suffix_ar tally_dist).bwt
      = syms mer_seq suffix_ar mer_seq.length := by
  have inv := passInv_run kmer_count mer_seq suffix_ar tally_dist hD mer_seq.length
    (Nat.le_refl _)
  apply List.ext_getElem?
  intro j
  simp only [build, hSA]
  by_cases hj : j < mer_seq.length
  · rw [inv.bwt_get j hj]
    simp [syms, List.getElem?_range hj]
  · rw [List.getElem?_eq_none (by rw [inv.bwt_len]; omega),
      List.getElem?_eq_none (by simp [syms]; omega)]

theorem occ_lt_build (kmer_count : Nat) (compare_kmers : Nat → Nat → Int)
    (mer_seq suffix_ar : List Nat) (tally_dist : Nat) (hD : 1 ≤ tally_dist)
    (hSA : suffix_ar.length = mer_seq.length) (c m : Nat) (hm : m ≤ mer_seq.length) :
    occ_lt (build kmer_count compare_kmers mer_seq suffix_ar tally_dist).bwt c m
      = (syms mer_seq suffix_ar m).count c := by
  rw [build_bwt kmer_count compare_kmers mer_seq suffix_ar tally_dist hD hSA]
  unfold occ_lt
  rw [take_syms mer_seq suffix_ar hm]

/-- Every in-range entry of the built tally table holds the true count at its
checkpoint. -/
theorem build_tally_entry (kmer_count : Nat) (compare_kmers : Nat → Nat → Int)
    (mer_seq suffix_ar : List Nat) (tally_dist : Nat) (hD : 1 ≤ tally_dist)
    (hSA : suffix_ar.length = mer_seq.length) (c b : Nat) (hc : c < kmer_count)
    (hb : b ≤ mer_seq.length / tally_dist) :
    ∃ row, (build kmer_count compare_kmers mer_seq suffix_ar tally_dist).mer_tally[c]?
        = some row ∧
      row.length = mer_seq.length / tally_dist + 1 ∧
      row[b]? = some ((occ_lt
        (build kmer_count compare_kmers mer_seq suffix_ar tally_dist).bwt c
        (min (b * tally_dist + 1) mer_seq.length) : Nat) : Int) := by
  have inv := passInv_run kmer_count mer_seq suffix_ar tally_dist hD mer_seq.length
    (Nat.le_refl _)
  obtain ⟨row, hrow, hrlen, hrget⟩ := inv.tally c hc
  have hbD : b * tally_dist ≤ mer_seq.length := (Nat.le_div_iff_mul_le (by omega)).mp hb
  rw [occ_lt_build kmer_count compare_kmers mer_seq suffix_ar tally_dist hD hSA c _
    (Nat.min_le_right _ _)]
  by_cases hlt : b * tally_dist < mer_seq.length
  · have hmin : min (b * tally_dist + 1) mer_seq.length = b * tally_dist + 1 :=
      Nat.min_eq_left (by omega)
    rw [hmin]
    by_cases hfill : mer_seq.length % tally_dist = 0
    · refine ⟨row.set (row.length - 1)
        ((run_pass kmer_count mer_seq suffix_ar tally_dist mer_seq.length).mer_counts.getD
          c 0), ?_, ?_, ?_⟩
      · simp only [build, hSA, fill_last, if_pos hfill]
        rw [update_rows_getElem?, if_pos hc, hrow, Option.map_some']
      · simp [hrlen]
      · rw [List.getElem?_set, hrlen]
        have hne : mer_seq.length / tally_dist + 1 - 1 ≠ b := by
          intro heq
          have hmul : mer_seq.length / tally_dist * tally_dist = mer_seq.length :=
            Nat.div_mul_cancel (Nat.dvd_of_mod_eq_zero hfill)
          have hq : mer_seq.length / tally_dist = b := by omega
          rw [hq] at hmul
          omega
        rw [if_neg hne]
        exact hrget b hlt
    · refine ⟨row, ?_, hrlen, hrget b hlt⟩
      simp only [build, hSA, fill_last, if_neg hfill]
      exact hrow
  · have heq : b * tally_dist = mer_seq.length := by omega
    have hmin : min (b * tally_dist + 1) mer_seq.length = mer_seq.length :=
      Nat.min_eq_right (by omega)
    have hfill : mer_seq.length % tally_dist = 0 := by
      rw [← heq, Nat.mul_mod_left]
    have hq : mer_seq.length / tally_dist = b := by
      rw [← heq, Nat.mul_div_cancel _ (by omega)]
    rw [hmin]
    refine ⟨row.set (row.length - 1)
      ((run_pass kmer_count mer_seq suffix_ar tally_dist mer_seq.length).mer_counts.getD
        c 0), ?_, ?_, ?_⟩
    · simp only [build, hSA, fill_last, if_pos hfill]
      rw [update_rows_getElem?, if_pos hc, hrow, Option.map_some']
    · simp [hrlen]
    · rw [List.getElem?_set, hrlen, List.getD_eq_getElem?_getD, inv.counts c hc]
      have h1 : mer_seq.length / tally_dist + 1 - 1 = b := by omega
      rw [if_pos h1, if_pos (by omega)]
      rfl

/-! ## The rank query on a built index -/

theorem tally_lookup (kmer_count : Nat) (compare_kmers : Nat → Nat → Int)
    (mer_seq suffix_ar : List Nat) (tally_dist : Nat) (hD : 1 ≤ tally_dist)
    (hSA : suffix_ar.length = mer_seq.length) (c b : Nat) (hc : c < kmer_count)
    (hb : b ≤ mer_seq.length / tally_dist) :
    ((build kmer_count compare_kmers mer_seq suffix_ar tally_dist).mer_tally.getD c []).getD
        b 0
      = ((occ_lt (build kmer_count compare_kmers mer_seq suffix_ar tally_dist).bwt c
          (min (b * tally_dist + 1) mer_seq.length) : Nat) : Int) := by
  obtain ⟨row, hrow, _, hget⟩ := build_tally_entry kmer_count compare_kmers mer_seq
    suffix_ar tally_dist hD hSA c b hc hb
  simp [List.getD_eq_getElem?_getD, hrow, hget]

theorem get_tally_build (kmer_count : Nat) (compare_kmers : Nat → Nat → Int)
    (mer_seq suffix_ar : List Nat) (tally_dist : Nat) (hD : 1 ≤ tally_dist)
    (hSA : suffix_ar.length = mer_seq.length) (c k : Nat) (hc : c < kmer_count)
    (hk : k < mer_seq.length) :
    get_tally (build kmer_count compare_kmers mer_seq suffix_ar tally_dist) c (k : Int)
      = ((occ (build kmer_count compare_kmers mer_seq suffix_ar tally_dist).bwt c k : Nat)
          : Int) := by
  have hlen : (build kmer_count compare_kmers mer_seq suffix_ar tally_dist).bwt.length
      = mer_seq.length := by
    rw [build_bwt kmer_count compare_kmers mer_seq suffix_ar tally_dist hD hSA]
    simp [syms]
  have htd : (build kmer_count compare_kmers mer_seq suffix_ar tally_dist).tally_dist
      = tally_dist := rfl
  have hlook := tally_lookup kmer_count compare_kmers mer_seq suffix_ar tally_dist hD hSA c
  generalize build kmer_count compare_kmers mer_seq suffix_ar tally_dist = fmi at *
  have h1 : k / tally_dist * tally_dist ≤ k := Nat.div_mul_le_self _ _
  have h2 : k < k / tally_dist * tally_dist + tally_dist := Nat.lt_div_mul_add (by omega)
  have hq : k / tally_dist ≤ mer_seq.length / tally_dist :=
    Nat.div_le_div_right (Nat.le_of_lt hk)
  have hcp : Int.tdiv (k : Int) (tally_dist : Int) * (tally_dist : Int)
      = ((k / tally_dist * tally_dist : Nat) : Int) := by
    rw [← Int.ofNat_tdiv]; push_cast; rfl
  rw [occ_eq_occ_lt]
  unfold get_tally tally_cp_dist
  rw [if_neg (by omega), htd, hlen, hcp]
  generalize hcpdef : k / tally_dist * tally_dist = cp at *
  by_cases hnext : (k : Int) - (cp : Int) > ((cp : Int) + (tally_dist : Int)) - (k : Int)
      ∧ (cp : Int) + (tally_dist : Int) < ((mer_seq.length : Nat) : Int)
  · simp only [if_pos hnext]
    have hidx : (k : Int) + ((cp : Int) + (tally_dist : Int) - (k : Int))
        = ((cp + tally_dist : Nat) : Int) := by push_cast; omega
    have hdiv : (cp + tally_dist) / tally_dist = k / tally_dist + 1 := by
      rw [← hcpdef, Nat.add_div_right _ (by omega), Nat.mul_div_cancel _ (by omega)]
    have hsteps : ((cp : Int) + (tally_dist : Int) - (k : Int)).toNat = cp + tally_dist - k := by
      omega
    have hb : k / tally_dist + 1 ≤ mer_seq.length / tally_dist := by
      rw [Nat.le_div_iff_mul_le (by omega), Nat.add_mul, hcpdef]
      omega
    have hmin : min ((k / tally_dist + 1) * tally_dist + 1) mer_seq.length
        = cp + tally_dist + 1 := by
      rw [Nat.add_mul, hcpdef]
      omega
    have hj : ((k : Int) + 1) = ((k + 1 : Nat) : Int) := by push_cast; rfl
    rw [if_pos (by omega), hidx, ← Int.ofNat_tdiv, Int.toNat_natCast, hdiv, hlook _ hc hb, hmin,
      hsteps, hj, walk_up_eq]
    have hsum : k + 1 + (cp + tally_dist - k) = cp + tally_dist + 1 := by omega
    rw [hsum]
    omega
  · simp only [if_neg hnext]
    have hidx : (k : Int) + ((cp : Int) - (k : Int)) = ((cp : Nat) : Int) := by omega
    have hdiv : cp / tally_dist = k / tally_dist := by
      rw [← hcpdef, Nat.mul_div_cancel _ (by omega)]
    have hmin : min (k / tally_dist * tally_dist + 1) mer_seq.length = cp + 1 := by
      rw [hcpdef]
      omega
    rw [if_neg (by omega), hidx, ← Int.ofNat_tdiv, Int.toNat_natCast, hdiv, hlook _ hc hq, hmin]
    by_cases hlt : (cp : Int) - (k : Int) < 0
    · have hsteps : (-((cp : Int) - (k : Int))).toNat = k - cp := by omega
      have hj : (k : Int) = ((k + 1 : Nat) : Int) - 1 := by push_cast; omega
      rw [if_pos hlt, hsteps]
      conv_lhs => rw [hj]
      rw [walk_down_eq _ _ _ _ _ (by omega)]
      have hsub : k + 1 - (k - cp) = cp + 1 := by omega
      rw [hsub]
      omega
    · have hkc : cp = k := by omega
      rw [if_neg hlt, hkc]

theorem fill_last_length (kmer_count : Nat) (mer_seq : List Nat) (tally_dist : Nat)
    (mer_counts : List Int) (mer_tally : List (List Int)) :
    (fill_last kmer_count mer_seq tally_dist mer_counts mer_tally).length
      = mer_tally.length := by
  unfold fill_last
  split
  · rw [update_rows_length]
  · rfl

theorem foldl_cond_add (p : Nat → Prop) [DecidablePred p] (g : Nat → Int) (l : List Nat)
    (a : Int) :
    l.foldl (fun acc j => if p j then acc + g j else acc) a
      = a + ((l.filter (fun j => decide (p j))).map g).sum := by
  induction l generalizing a with
  | nil => simp
  | cons x xs ih =>
    rw [List.foldl_cons, ih]
    by_cases hx : p x
    · simp [hx, List.filter_cons, Int.add_assoc]
    · simp [hx, List.filter_cons]

theorem get_tally_neg (fmi : Index) (c : Nat) (i : Int) (h : i < 0) :
    get_tally fmi c i = -1 := by
  unfold get_tally
  rw [if_pos h]

theorem mem_set_insert_of_mem (queries : List Query) (q x : Query) (h : x ∈ queries) :
    x ∈ set_insert queries q := by
  induction queries with
  | nil => cases h
  | cons a rest ih =>
    simp only [set_insert]
    split
    · rcases List.mem_cons.mp h with h | h
      · exact h ▸ List.mem_cons_self _ _
      · exact List.mem_cons_of_mem _ (ih h)
    · split
      · exact List.mem_cons_of_mem _ h
      · exact h

theorem mem_set_insert (queries : List Query) (q y : Query)
    (h : y ∈ set_insert queries q) : y ∈ queries ∨ y = q := by
  induction queries with
  | nil =>
    simp only [set_insert, List.mem_singleton] at h
    exact Or.inr h
  | cons a rest ih =>
    simp only [set_insert] at h
    split at h
    · rcases List.mem_cons.mp h with h | h
      · exact Or.inl (h ▸ List.mem_cons_self _ _)
      · rcases ih h with h | h
        · exact Or.inl (List.mem_cons_of_mem _ h)
        · exact Or.inr h
    · split at h
      · rcases List.mem_cons.mp h with h | h
        · exact Or.inr h
        · exact Or.inl h
      · exact Or.inl h

theorem mem_insert_valid_of_mem (pieces queries : List Query) (count : Int) (x : Query)
    (h : x ∈ queries) : x ∈ (insert_valid queries pieces count).1 := by
  induction pieces generalizing queries count with
  | nil => exact h
  | cons sq rest ih =>
    simp only [insert_valid]
    split
    · exact ih _ _ (mem_set_insert_of_mem queries sq x h)
    · exact ih _ _ h

theorem mem_insert_valid (pieces queries : List Query) (count : Int) (y : Query)
    (h : y ∈ (insert_valid queries pieces count).1) :
    y ∈ queries ∨ (y ∈ pieces ∧ y.is_valid = true) := by
  induction pieces generalizing queries count with
  | nil => exact Or.inl h
  | cons sq rest ih =>
    simp only [insert_valid] at h
    split at h
    · rename_i hv
      rcases ih _ _ h with h | h
      · rcases mem_set_insert queries sq y h with h | h
        · exact Or.inl h
        · exact Or.inr ⟨h ▸ List.mem_cons_self _ _, h ▸ hv⟩
      · exact Or.inr ⟨List.mem_cons_of_mem _ h.1, h.2⟩
    · rcases ih _ _ h with h | h
      · exact Or.inl h
      · exact Or.inr ⟨List.mem_cons_of_mem _ h.1, h.2⟩

theorem blank_not_valid : Query.blank.is_valid = false := by
  simp [Query.is_valid, Query.blank]

theorem split_query_left (sq q : Query) :
    (sq.split_query q).1 = Query.blank ∨ (sq.split_query q).1.same_payload q := by
  simp only [Query.split_query]
  split
  · exact Or.inr ⟨rfl, rfl, rfl, rfl⟩
  · exact Or.inl rfl

theorem split_query_right (sq q : Query) : (sq.split_query q).2.same_payload q := by
  simp only [Query.split_query]
  split
  · exact ⟨rfl, rfl, rfl, rfl⟩
  · exact ⟨rfl, rfl, rfl, rfl⟩

theorem same_payload_trans {a b c : Query} (h1 : a.same_payload b)
    (h2 : b.same_payload c) : a.same_payload c :=
  ⟨h1.1.trans h2.1, h1.2.1.trans h2.2.1, h1.2.2.1.trans h2.2.2.1, h1.2.2.2.trans h2.2.2.2⟩

theorem mem_split_all (sqs : List Query) (q y : Query) (h : y ∈ split_all sqs q) :
    y = Query.blank ∨ y.same_payload q := by
  induction sqs generalizing q with
  | nil =>
    simp only [split_all, List.mem_singleton] at h
    exact Or.inr (h ▸ ⟨rfl, rfl, rfl, rfl⟩)
  | cons sq rest ih =>
    simp only [split_all] at h
    rcases List.mem_cons.mp h with h | h
    · rw [h]
      exact split_query_left sq q
    · rcases ih _ h with h | h
      · exact Or.inl h
      · exact Or.inr (same_payload_trans h (split_query_right sq q))

theorem mem_update_queries_of_mem (queries : List Query) (q x : Query) (h : x ∈ queries) :
    x ∈ (update_queries queries q).1 := by
  simp only [update_queries]
  split
  · exact mem_set_insert_of_mem queries q x h
  · exact mem_insert_valid_of_mem _ _ _ x h

theorem mem_update_queries (queries : List Query) (q y : Query)
    (h : y ∈ (update_queries queries q).1) : y ∈ queries ∨ y.same_payload q := by
  simp only [update_queries] at h
  split at h
  · rcases mem_set_insert queries q y h with h | h
    · exact Or.inl h
    · exact Or.inr (h ▸ ⟨rfl, rfl, rfl, rfl⟩)
  · rcases mem_insert_valid _ _ _ y h with h | ⟨hmem, hvalid⟩
    · exact Or.inl h
    · rcases mem_split_all _ _ _ hmem with hb | hs
      · rw [hb, blank_not_valid] at hvalid
        cases hvalid
      · exact Or.inr hs

theorem add_results_loop_eq (fmi : Index) (q : Query) (query_end : Int) (n : Nat) (s : Int)
    (results : List Result) :
    add_results_loop fmi q query_end n s results
      = results
        ++ (List.range n).map (fun (j : Nat) => q.result_at fmi query_end (s + (j : Int))) := by
  induction n generalizing s results with
  | zero => simp [add_results_loop]
  | succ n ih =>
    rw [add_results_loop, ih, List.range_succ_eq_map, List.map_cons, List.map_map,
      List.append_assoc]
    simp only [List.singleton_append, Nat.cast_zero, add_zero]
    congr 2
    apply List.map_congr_left
    intro j _
    simp only [Function.comp, Nat.succ_eq_add_one, Nat.cast_add, Nat.cast_one]
    congr 1
    omega

/-! ## Lemmas for the comparator, the empty build and the F array -/

theorem compare_from_eq_rotation (compare_kmers : Nat → Nat → Int) (mer_seq : List Nat)
    (rot1 rot2 remaining i : Nat) (b : Bool)
    (h : compare_from compare_kmers mer_seq rot1 rot2 remaining i = some b) :
    rotation_less_from compare_kmers mer_seq rot1 rot2 remaining i = b := by
  induction remaining generalizing i with
  | zero =>
    simp only [compare_from, Option.some.injEq] at h
    simp [rotation_less_from, h]
  | succ r ih =>
    rw [compare_from] at h
    rw [rotation_less_from]
    cases h1 : mer_seq[rot1 + i]? with
    | none => simp [h1] at h
    | some a =>
      cases h2 : mer_seq[rot2 + i]? with
      | none => simp [h1, h2] at h
      | some a2 =>
        have hlt1 : rot1 + i < mer_seq.length := by
          by_contra hge
          rw [List.getElem?_eq_none (Nat.le_of_not_lt hge)] at h1
          cases h1
        have hlt2 : rot2 + i < mer_seq.length := by
          by_contra hge
          rw [List.getElem?_eq_none (Nat.le_of_not_lt hge)] at h2
          cases h2
        have hg1 : mer_seq.getD ((rot1 + i) % mer_seq.length) 0 = a := by
          rw [Nat.mod_eq_of_lt hlt1, List.getD_eq_getElem?_getD, h1]
          rfl
        have hg2 : mer_seq.getD ((rot2 + i) % mer_seq.length) 0 = a2 := by
          rw [Nat.mod_eq_of_lt hlt2, List.getD_eq_getElem?_getD, h2]
          rfl
        rw [hg1, hg2]
        simp only [h1, h2] at h
        by_cases hz : compare_kmers a a2 = 0
        · rw [if_pos hz] at h ⊢
          exact ih (i + 1) h
        · rw [if_neg hz] at h ⊢
          by_cases hneg : compare_kmers a a2 < 0
          · rw [if_pos hneg] at h
            simp only [Option.some.injEq] at h
            simp [hneg, ← h]
          · rw [if_neg hneg] at h
            simp only [Option.some.injEq] at h
            simp [hneg, ← h]

/-- Whenever the comparator returns, it returns the cyclic comparison. -/
theorem suffix_less_eq_rotation_less (compare_kmers : Nat → Nat → Int) (mer_seq : List Nat)
    (rot1 rot2 : Nat) (b : Bool) (h : suffix_less compare_kmers mer_seq rot1 rot2 = some b) :
    rotation_less compare_kmers mer_seq rot1 rot2 = b :=
  compare_from_eq_rotation compare_kmers mer_seq rot1 rot2 mer_seq.length 0 b h

theorem foldl_cond_add_ite (p : Nat → Prop) [DecidablePred p] (g : Nat → Int) (l : List Nat)
    (a : Int) :
    l.foldl (fun acc j => if p j then acc + g j else acc) a
      = a + (l.map (fun j => if p j then g j else 0)).sum := by
  induction l generalizing a with
  | nil => simp
  | cons x xs ih =>
    rw [List.foldl_cons, ih]
    by_cases hx : p x
    · simp [hx, Int.add_assoc]
    · simp [hx]

theorem f_start_eq_sum (kmer_count : Nat) (compare_kmers : Nat → Nat → Int)
    (mer_counts : List Int) (c : Nat) :
    f_start kmer_count compare_kmers mer_counts c
      = 1 + ((List.range kmer_count).map
          (fun j => if compare_kmers c j > 0 then mer_counts.getD j 0 else 0)).sum := by
  unfold f_start
  exact foldl_cond_add_ite (fun j => compare_kmers c j > 0) _ _ _

theorem build_empty (kmer_count : Nat) (compare_kmers : Nat → Nat → Int) (tally_dist : Nat) :
    build kmer_count compare_kmers [] [] tally_dist
      = { tally_dist := tally_dist
          suffix_ar := []
          bwt := []
          mer_f_starts := List.replicate kmer_count 1
          mer_counts := List.replicate kmer_count 0
          mer_tally := List.replicate kmer_count [0] } := by
  have hF : (List.range kmer_count).map
      (f_start kmer_count compare_kmers (List.replicate kmer_count 0))
      = List.replicate kmer_count 1 := by
    apply List.ext_getElem?
    intro j
    by_cases hj : j < kmer_count
    · rw [List.getElem?_map, List.getElem?_range hj, List.getElem?_replicate, if_pos hj,
        Option.map_some', f_start_eq_sum]
      have hz : (List.range kmer_count).map
          (fun i => if compare_kmers j i > 0 then (List.replicate kmer_count (0 : Int)).getD i 0
            else 0)
          = (List.range kmer_count).map (fun _ => (0 : Int)) := by
        apply List.map_congr_left
        intro i _
        split
        · rw [List.getD_eq_getElem?_getD, List.getElem?_replicate]
          split <;> rfl
        · rfl
      rw [hz]
      simp
    · rw [List.getElem?_eq_none (by simp; omega), List.getElem?_eq_none (by simp; omega)]
  have hT : fill_last kmer_count [] tally_dist (List.replicate kmer_count 0)
      (List.replicate kmer_count (List.replicate (([] : List Nat).length / tally_dist + 1) (-1)))
      = List.replicate kmer_count [0] := by
    have hrow : List.replicate (([] : List Nat).length / tally_dist + 1) (-1 : Int) = [-1] := by
      simp
    rw [hrow]
    apply List.ext_getElem?
    intro j
    simp only [fill_last, List.length_nil, Nat.zero_mod, if_true]
    rw [update_rows_getElem?, List.getElem?_replicate, List.getElem?_replicate]
    by_cases hj : j < kmer_count
    · simp [hj, List.getD_eq_getElem?_getD, List.getElem?_replicate]
    · simp [hj]
  simp only [List.length_nil] at hT
  simp only [build, List.length_nil, run_pass, pass_init]
  rw [hF, hT]
  simp

theorem getD_set_int (l : List Int) (i j : Nat) (v d : Int) :
    (l.set i v).getD j d = if i = j ∧ i < l.length then v else l.getD j d := by
  rw [List.getD_eq_getElem?_getD, List.getElem?_set, List.getD_eq_getElem?_getD]
  by_cases hij : i = j
  · by_cases hlt : i < l.length
    · rw [if_pos hij, if_pos hlt, if_pos ⟨hij, hlt⟩]
      rfl
    · have hnone : l[j]? = none := by
        rw [← hij]
        exact List.getElem?_eq_none (Nat.le_of_not_lt hlt)
      rw [if_pos hij, if_neg hlt, if_neg (fun h => hlt h.2), hnone]
  · rw [if_neg hij, if_neg (fun h => hij h.1)]

theorem run_pass_counts_nonneg (kmer_count : Nat) (mer_seq suffix_ar : List Nat)
    (tally_dist : Nat) (k j : Nat) :
    0 ≤ (run_pass kmer_count mer_seq suffix_ar tally_dist k).mer_counts.getD j 0 := by
  induction k generalizing j with
  | zero =>
    simp only [run_pass, pass_init, List.getD_eq_getElem?_getD, List.getElem?_replicate]
    split <;> simp
  | succ k ih =>
    simp only [run_pass, pass_step]
    rw [getD_set_int]
    split
    · have := ih (bwt_symbol mer_seq suffix_ar k)
      omega
    · exact ih j

theorem run_pass_counts_length (kmer_count : Nat) (mer_seq suffix_ar : List Nat)
    (tally_dist : Nat) (k : Nat) :
    (run_pass kmer_count mer_seq suffix_ar tally_dist k).mer_counts.length = kmer_count := by
  induction k with
  | zero => simp [run_pass, pass_init]
  | succ k ih => simp [run_pass, pass_step, ih]

theorem sum_map_add_le (l : List Nat) (f h g : Nat → Int)
    (hle : ∀ j ∈ l, f j + h j ≤ g j) :
    (l.map f).sum + (l.map h).sum ≤ (l.map g).sum := by
  induction l with
  | nil => simp
  | cons x xs ih =>
    have hx := hle x (List.mem_cons_self _ _)
    have hxs := ih (fun j hj => hle j (List.mem_cons_of_mem _ hj))
    simp only [List.map_cons, List.sum_cons]
    omega

theorem sum_map_single (n c : Nat) (v : Int) (hc : c < n) :
    ((List.range n).map (fun j => if j = c then v else 0)).sum = v := by
  induction n with
  | zero => omega
  | succ n ih =>
    rw [List.range_succ, List.map_append, List.sum_append]
    by_cases hcn : c = n
    · subst hcn
      have hz : (List.range c).map (fun j => if j = c then v else (0 : Int))
          = (List.range c).map (fun _ => (0 : Int)) := by
        apply List.map_congr_left
        intro j hj
        have : j ≠ c := by
          have := List.mem_range.mp hj
          omega
        simp [this]
      rw [hz]
      simp
    · have hlt : c < n := by omega
      rw [ih hlt]
      simp [Ne.symm hcn]

theorem sum_set_int (l : List Int) (i : Nat) (v : Int) (h : i < l.length) :
    (l.set i v).sum = l.sum - l.getD i 0 + v := by
  induction l generalizing i with
  | nil => simp at h
  | cons x xs ih =>
    cases i with
    | zero =>
      simp only [List.set_cons_zero, List.sum_cons, List.getD_cons_zero]
      omega
    | succ i =>
      simp only [List.set_cons_succ, List.sum_cons, List.getD_cons_succ]
      rw [ih i (by simpa using h)]
      omega

theorem bwt_symbol_lt (kmer_count : Nat) (mer_seq suffix_ar : List Nat)
    (hsym : ∀ x ∈ mer_seq, x < kmer_count) (hrange : ∀ p ∈ suffix_ar, p < mer_seq.length)
    (i : Nat) (hi : i < suffix_ar.length) :
    bwt_symbol mer_seq suffix_ar i < kmer_count := by
  have hget : ∀ j, j < suffix_ar.length → suffix_ar.getD j 0 < mer_seq.length := by
    intro j hj
    rw [List.getD_eq_getElem?_getD, List.getElem?_eq_getElem hj]
    exact hrange _ (List.getElem_mem _)
  have hin : ∀ p, p < mer_seq.length → mer_seq.getD p 0 < kmer_count := by
    intro p hp
    rw [List.getD_eq_getElem?_getD, List.getElem?_eq_getElem hp]
    exact hsym _ (List.getElem_mem _)
  unfold bwt_symbol
  split
  · exact hin _ (by have := hget i hi; omega)
  · exact hin _ (hget _ (by omega))

theorem run_pass_counts_sum (kmer_count : Nat) (mer_seq suffix_ar : List Nat)
    (tally_dist : Nat) (hsym : ∀ x ∈ mer_seq, x < kmer_count)
    (hrange : ∀ p ∈ suffix_ar, p < mer_seq.length) (k : Nat) (hk : k ≤ suffix_ar.length) :
    (run_pass kmer_count mer_seq suffix_ar tally_dist k).mer_counts.sum = (k : Int) := by
  induction k with
  | zero => simp [run_pass, pass_init]
  | succ k ih =>
    have hlt := bwt_symbol_lt kmer_count mer_seq suffix_ar hsym hrange k (by omega)
    simp only [run_pass, pass_step]
    rw [sum_set_int _ _ _ (by rw [run_pass_counts_length]; exact hlt), ih (by omega)]
    push_cast
    omega

theorem nat_compare_flip (a b : Nat) (h : nat_compare a b < 0) : nat_compare b a > 0 := by
  unfold nat_compare at h ⊢
  split at h
  · rename_i hab
    rw [if_neg (by omega), if_neg (by omega)]
    decide
  · split at h <;> simp at h

theorem nat_compare_trans (a b c : Nat) (h1 : nat_compare a b > 0) (h2 : nat_compare b c > 0) :
    nat_compare a c > 0 := by
  unfold nat_compare at h1 h2 ⊢
  split at h1
  · simp at h1
  · split at h1
    · simp at h1
    · split at h2
      · simp at h2
      · split at h2
        · simp at h2
        · rw [if_neg (by omega), if_neg (by omega)]
          decide

theorem nat_compare_self (a : Nat) : nat_compare a a = 0 := by
  simp [nat_compare]

/-! ## Lemmas on the seed search -/

theorem update_queries_match_len (P : Int → Prop) (queries : List Query) (q : Query)
    (hqs : ∀ x ∈ queries, P x.match_len_) (hq : P q.match_len_) :
    ∀ y ∈ (update_queries queries q).1, P y.match_len_ := by
  intro y hy
  rcases mem_update_queries queries q y hy with h | h
  · exact hqs y h
  · rw [h.2.1]
    exact hq

theorem set_insert_match_len (P : Int → Prop) (queries : List Query) (q : Query)
    (hqs : ∀ x ∈ queries, P x.match_len_) (hq : P q.match_len_) :
    ∀ y ∈ set_insert queries q, P y.match_len_ := by
  intro y hy
  rcases mem_set_insert queries q y hy with h | h
  · exact hqs y h
  · rw [h]
    exact hq

theorem next_valid_match_len (fmi : Index) (pq : Query) (n : Nat) (p : ℚ)
    (h : (Query.next fmi pq n p).is_valid = true) :
    (Query.next fmi pq n p).match_len_ = pq.match_len_ + 1 := by
  unfold Query.next at h ⊢
  simp only at h ⊢
  split
  · rfl
  · rename_i hlt
    rw [if_neg hlt] at h
    simp [Query.is_valid] at h

theorem stay_branch_bounded (seed_len : Int) (stay : Bool) (ep_i : Nat → ℚ) (s : Search)
    (pq : Query) (hpq : 1 ≤ pq.match_len_ ∧ pq.match_len_ < seed_len)
    (hs : s.bounded seed_len) : (stay_branch stay ep_i s pq).bounded seed_len := by
  unfold stay_branch
  split
  · exact ⟨update_queries_match_len (fun m => 1 ≤ m ∧ m < seed_len) _ _ hs.1 hpq, hs.2⟩
  · exact hs

theorem match_branch_bounded (fmi : Index) (ep_i : Nat → ℚ) (seed_len : Int) (pq : Query)
    (hpq : 1 ≤ pq.match_len_ ∧ pq.match_len_ < seed_len) (s : Search)
    (hs : s.bounded seed_len) (n : Nat) :
    (match_branch fmi ep_i seed_len pq s n).bounded seed_len := by
  unfold match_branch
  split
  · split
    · rename_i hvalid
      have hm := next_valid_match_len fmi pq n (ep_i n) hvalid
      split
      · rename_i hlt
        simp only [Query.match_len] at hlt
        exact ⟨update_queries_match_len (fun m => 1 ≤ m ∧ m < seed_len) _ _ hs.1
          ⟨by omega, hlt⟩, hs.2⟩
      · rename_i hge
        simp only [Query.match_len] at hge
        exact ⟨hs.1, set_insert_match_len (fun m => m = seed_len) _ _ hs.2 (by omega)⟩
    · exact hs
  · exact hs

theorem expand_query_bounded (fmi : Index) (get_neighbors : Nat → List Nat) (stay : Bool)
    (ep_i : Nat → ℚ) (seed_len : Int) (s : Search) (pq : Query)
    (hpq : 1 ≤ pq.match_len_ ∧ pq.match_len_ < seed_len) (hs : s.bounded seed_len) :
    (expand_query fmi get_neighbors stay ep_i seed_len s pq).bounded seed_len := by
  unfold expand_query
  have h0 := stay_branch_bounded seed_len stay ep_i s pq hpq hs
  generalize stay_branch stay ep_i s pq = s0 at h0
  generalize get_neighbors pq.k_id_ = ns
  induction ns generalizing s0 with
  | nil => exact h0
  | cons n rest ih =>
    rw [List.foldl_cons]
    exact ih _ (match_branch_bounded fmi ep_i seed_len pq hpq s0 h0 n)

theorem expand_all_bounded (fmi : Index) (get_neighbors : Nat → List Nat) (stay : Bool)
    (ep_i : Nat → ℚ) (seed_len : Int) (prev : List Query)
    (hprev : ∀ x ∈ prev, 1 ≤ x.match_len_ ∧ x.match_len_ < seed_len) (s : Search)
    (hs : s.bounded seed_len) :
    (prev.foldl (expand_query fmi get_neighbors stay ep_i seed_len) s).bounded seed_len := by
  induction prev generalizing s with
  | nil => exact hs
  | cons pq rest ih =>
    rw [List.foldl_cons]
    exact ih (fun x hx => hprev x (List.mem_cons_of_mem _ hx)) _
      (expand_query_bounded fmi get_neighbors stay ep_i seed_len s pq
        (hprev pq (List.mem_cons_self _ _)) hs)

theorem extend_loop_bounded (fmi : Index) (get_neighbors : Nat → List Nat)
    (ep : Nat → Nat → ℚ) (stay_prob : Nat → ℚ) (seed_len : Int) (prev : List Query)
    (hprev : ∀ x ∈ prev, 1 ≤ x.match_len_ ∧ x.match_len_ < seed_len) (fuel : Nat)
    (s : Search) (hs : s.bounded seed_len) :
    (extend_loop fmi get_neighbors ep stay_prob seed_len prev fuel s).bounded seed_len := by
  induction fuel generalizing s with
  | zero => exact hs
  | succ i ih =>
    have hstep := expand_all_bounded fmi get_neighbors (stay_allowed (stay_prob i)) (ep i)
      seed_len prev hprev { s with mer_matched := false } hs
    rw [extend_loop]
    split
    · split
      · exact ih _ hstep
      · exact hstep
    · exact hs

theorem seed_frontier_bounded (fmi : Index) (kmer_count : Nat) (ep_row : Nat → ℚ)
    (seed_len : Int) (hlen : 2 ≤ seed_len) (frontier : List Query)
    (hfr : ∀ x ∈ frontier, 1 ≤ x.match_len_ ∧ x.match_len_ < seed_len) :
    ∀ x ∈ seed_frontier fmi kmer_count ep_row frontier,
      1 ≤ x.match_len_ ∧ x.match_len_ < seed_len := by
  unfold seed_frontier
  generalize List.range kmer_count = ks
  induction ks generalizing frontier with
  | nil => exact hfr
  | cons k rest ih =>
    rw [List.foldl_cons]
    apply ih
    split
    · exact update_queries_match_len (fun m => 1 ≤ m ∧ m < seed_len) _ _ hfr
        ⟨by simp [Query.initial], by simp only [Query.initial]; omega⟩
    · exact hfr

theorem sweep_step_bounded (fmi : Index) (kmer_count : Nat) (get_neighbors : Nat → List Nat)
    (ep : Nat → Nat → ℚ) (stay_prob : Nat → ℚ) (map_start : Nat) (seed_len : Int)
    (hlen : 2 ≤ seed_len) (st : Frontiers) (hst : st.bounded seed_len) (seed_end : Nat) :
    (sweep_step fmi kmer_count get_neighbors ep stay_prob map_start seed_len st
      seed_end).bounded seed_len := by
  have hback := seed_frontier_bounded fmi kmer_count (ep map_start) seed_len hlen st.back hst.1
  have hloop := extend_loop_bounded fmi get_neighbors ep stay_prob seed_len
    (seed_frontier fmi kmer_count (ep map_start) st.back) hback seed_end
    { next := st.next, finished := st.finished, mer_matched := true } ⟨hst.2.1, hst.2.2⟩
  exact ⟨hback, hloop.1, hloop.2⟩

theorem sweep_loop_bounded (fmi : Index) (kmer_count : Nat) (get_neighbors : Nat → List Nat)
    (ep : Nat → Nat → ℚ) (stay_prob : Nat → ℚ) (map_start : Nat) (seed_len : Int)
    (hlen : 2 ≤ seed_len) (count seed_end : Nat) (st : Frontiers)
    (hst : st.bounded seed_len) :
    (sweep_loop fmi kmer_count get_neighbors ep stay_prob map_start seed_len count seed_end
      st).bounded seed_len := by
  induction count generalizing seed_end st with
  | zero => exact hst
  | succ c ih =>
    rw [sweep_loop]
    exact ih _ _ (sweep_step_bounded fmi kmer_count get_neighbors ep stay_prob map_start
      seed_len hlen st hst seed_end)

theorem lf_search_bounded (fmi : Index) (kmer_count : Nat) (get_neighbors : Nat → List Nat)
    (ep : Nat → Nat → ℚ) (stay_prob : Nat → ℚ) (map_start : Nat) (seed_len : Int)
    (hlen : 2 ≤ seed_len) :
    (lf_search fmi kmer_count get_neighbors ep stay_prob map_start
      seed_len).bounded seed_len := by
  unfold lf_search
  apply sweep_loop_bounded _ _ _ _ _ _ _ hlen
  refine ⟨?_, ?_, ?_⟩ <;> intro x hx <;> cases hx

theorem mem_add_results (fmi : Index) (q : Query) (results : List Result) (query_end : Int)
    (min_prob : ℚ) (r : Result) (hr : r ∈ (q.add_results fmi results query_end min_prob).1) :
    r ∈ results ∨ r.ref_end - r.ref_start + 1 = q.match_len_ := by
  unfold Query.add_results at hr
  split at hr
  · simp only [add_results_loop_eq, List.mem_append, List.mem_map] at hr
    rcases hr with h | ⟨j, _, rfl⟩
    · exact Or.inl h
    · right
      simp only [Query.result_at]
      omega
  · exact Or.inl hr

theorem emit_results_span (fmi : Index) (map_start : Int) (seed_len : Int)
    (finished : List Query) (hfin : ∀ q ∈ finished, q.match_len_ = seed_len)
    (prev : Option Query) (results : List Result)
    (hres : ∀ r ∈ results, r.ref_end - r.ref_start + 1 = seed_len) :
    ∀ r ∈ emit_results fmi map_start prev finished results,
      r.ref_end - r.ref_start + 1 = seed_len := by
  induction finished generalizing prev results with
  | nil =>
    cases prev <;> exact hres
  | cons qry rest ih =>
    have hq := hfin qry (List.mem_cons_self _ _)
    have hrest : ∀ q ∈ rest, q.match_len_ = seed_len :=
      fun q hq => hfin q (List.mem_cons_of_mem _ hq)
    have hadd : ∀ r ∈ (qry.add_results fmi results map_start SEED_THRESH).1,
        r.ref_end - r.ref_start + 1 = seed_len := by
      intro r hr
      rcases mem_add_results fmi qry results map_start SEED_THRESH r hr with h | h
      · exact hres r h
      · rw [h, hq]
    cases prev with
    | none =>
      rw [emit_results]
      exact ih hrest _ _ hadd
    | some p =>
      rw [emit_results]
      apply ih hrest
      split
      · exact hres
      · exact hadd

theorem update_queries_nil (q : Query) : (update_queries [] q).1 = [q] := by
  simp [update_queries, lower_bound, scan_end, scan_start, set_insert]

/-! ## Lemmas on the shape of the queries of a search -/

theorem build_counts_nonneg (kmer_count : Nat) (compare_kmers : Nat → Nat → Int)
    (mer_seq suffix_ar : List Nat) (tally_dist : Nat) (k : Nat) :
    0 ≤ (build kmer_count compare_kmers mer_seq suffix_ar tally_dist).mer_counts.getD k 0 :=
  run_pass_counts_nonneg kmer_count mer_seq suffix_ar tally_dist suffix_ar.length k

theorem sum_map_nonneg (l : List Nat) (f : Nat → Int) (h : ∀ j, 0 ≤ f j) :
    0 ≤ (l.map f).sum := by
  induction l with
  | nil => simp
  | cons x xs ih =>
    have := h x
    simp only [List.map_cons, List.sum_cons]
    omega

theorem build_f_start_pos (kmer_count : Nat) (compare_kmers : Nat → Nat → Int)
    (mer_seq suffix_ar : List Nat) (tally_dist : Nat) (k : Nat) (hk : k < kmer_count) :
    1 ≤ (build kmer_count compare_kmers mer_seq suffix_ar tally_dist).mer_f_starts.getD k 0 := by
  have hnn := run_pass_counts_nonneg kmer_count mer_seq suffix_ar tally_dist suffix_ar.length
  simp only [build, List.getD_eq_getElem?_getD, List.getElem?_map, List.getElem?_range hk,
    Option.map_some', Option.getD_some]
  rw [f_start_eq_sum]
  have := sum_map_nonneg (List.range kmer_count)
    (fun j => if compare_kmers k j > 0 then
      (run_pass kmer_count mer_seq suffix_ar tally_dist suffix_ar.length).mer_counts.getD j 0
      else 0)
    (by
      intro j
      dsimp only
      split
      · exact hnn j
      · exact Int.le_refl 0)
  omega

/-- On a built index the rank query is non-negative at every non-negative index, also
at an index past the end of the BWT. -/
theorem get_tally_build_nonneg (kmer_count : Nat) (compare_kmers : Nat → Nat → Int)
    (mer_seq suffix_ar : List Nat) (tally_dist : Nat) (hD : 1 ≤ tally_dist)
    (hSA : suffix_ar.length = mer_seq.length) (c : Nat) (hc : c < kmer_count) (i : Int)
    (hi : 0 ≤ i) :
    0 ≤ get_tally (build kmer_count compare_kmers mer_seq suffix_ar tally_dist) c i := by
  obtain ⟨k, rfl⟩ := Int.eq_ofNat_of_zero_le hi
  by_cases hk : k < mer_seq.length
  · rw [get_tally_build kmer_count compare_kmers mer_seq suffix_ar tally_dist hD hSA c k hc hk]
    exact Int.ofNat_nonneg _
  · have hlen : (build kmer_count compare_kmers mer_seq suffix_ar tally_dist).bwt.length
        = mer_seq.length := by
      rw [build_bwt kmer_count compare_kmers mer_seq suffix_ar tally_dist hD hSA]
      simp [syms]
    have htd : (build kmer_count compare_kmers mer_seq suffix_ar tally_dist).tally_dist
        = tally_dist := rfl
    have hlook := tally_lookup kmer_count compare_kmers mer_seq suffix_ar tally_dist hD hSA c
    obtain ⟨row0, hrow0, hrow0len, -⟩ := build_tally_entry kmer_count compare_kmers mer_seq
      suffix_ar tally_dist hD hSA c 0 hc (Nat.zero_le _)
    generalize build kmer_count compare_kmers mer_seq suffix_ar tally_dist = fmi at *
    have h1 : k / tally_dist * tally_dist ≤ k := Nat.div_mul_le_self _ _
    have h2 : k < k / tally_dist * tally_dist + tally_dist := Nat.lt_div_mul_add (by omega)
    have hcp : Int.tdiv (k : Int) (tally_dist : Int) * (tally_dist : Int)
        = ((k / tally_dist * tally_dist : Nat) : Int) := by
      rw [← Int.ofNat_tdiv]; push_cast; rfl
    have hentry : 0 ≤ (fmi.mer_tally.getD c []).getD (k / tally_dist) 0 := by
      by_cases hb : k / tally_dist ≤ mer_seq.length / tally_dist
      · rw [hlook _ hc hb]
        exact Int.ofNat_nonneg _
      · have hrowD : fmi.mer_tally.getD c [] = row0 := by
          simp [List.getD_eq_getElem?_getD, hrow0]
        rw [hrowD, List.getD_eq_getElem?_getD, List.getElem?_eq_none (by omega)]
        exact Int.le_refl 0
    unfold get_tally tally_cp_dist
    rw [if_neg (by omega), htd, hlen, hcp]
    have hdiv : k / tally_dist * tally_dist / tally_dist = k / tally_dist :=
      Nat.mul_div_cancel _ (by omega)
    generalize hcpdef : k / tally_dist * tally_dist = cp at *
    have hnext : ¬ ((k : Int) - (cp : Int) > ((cp : Int) + (tally_dist : Int)) - (k : Int)
        ∧ (cp : Int) + (tally_dist : Int) < ((mer_seq.length : Nat) : Int)) := by
      omega
    simp only [if_neg hnext]
    have hidx : (k : Int) + ((cp : Int) - (k : Int)) = ((cp : Nat) : Int) := by omega
    rw [if_neg (by omega), hidx, ← Int.ofNat_tdiv, Int.toNat_natCast, hdiv]
    by_cases hlt : (cp : Int) - (k : Int) < 0
    · have hsteps : (-((cp : Int) - (k : Int))).toNat = k - cp := by omega
      have hj : (k : Int) = ((k + 1 : Nat) : Int) - 1 := by push_cast; omega
      rw [if_pos hlt, hsteps]
      conv_rhs => rw [hj]
      rw [walk_down_eq _ _ _ _ _ (by omega)]
      have hmono : occ_lt fmi.bwt c (k + 1 - (k - cp)) ≤ occ_lt fmi.bwt c (k + 1) :=
        occ_lt_mono _ c (by omega)
      omega
    · rw [if_neg hlt]
      exact hentry

theorem initial_grounded (fmi : Index) (kmer_count k : Nat) (p : ℚ) (hk : k < kmer_count)
    (hF : ∀ j, j < kmer_count → 1 ≤ fmi.mer_f_starts.getD j 0)
    (hcnt : ∀ j, 0 ≤ fmi.mer_counts.getD j 0) : (Query.initial fmi k p).grounded fmi := by
  have h1 := hF k hk
  have h2 := hcnt k
  simp only [Query.grounded, Query.initial]
  refine ⟨h1, by omega, by omega, by omega, fun h => by omega⟩

theorem stay_grounded (fmi : Index) (q : Query) (p : ℚ) (hq : q.grounded fmi) :
    (Query.stay q p).grounded fmi := by
  obtain ⟨h1, h2, h3, h4, h5⟩ := hq
  simp only [Query.grounded, Query.stay]
  exact ⟨h1, h2, h3, by omega, h5⟩

theorem next_valid_grounded (fmi : Index) (kmer_count : Nat) (pq : Query) (n : Nat) (p : ℚ)
    (hn : n < kmer_count) (hF : ∀ j, j < kmer_count → 1 ≤ fmi.mer_f_starts.getD j 0)
    (hrank : ∀ c, c < kmer_count → ∀ i : Int, 0 ≤ i → 0 ≤ get_tally fmi c i)
    (hpq : pq.grounded fmi) (hvalid : (Query.next fmi pq n p).is_valid = true) :
    (Query.next fmi pq n p).grounded fmi
      ∧ (Query.next fmi pq n p).start_ ≤ (Query.next fmi pq n p).end_ := by
  obtain ⟨h1, _, h3, h4, _⟩ := hpq
  have hFn := hF n hn
  have hmin := hrank n hn (pq.start_ - 1) (by omega)
  unfold Query.next at hvalid ⊢
  simp only at hvalid ⊢
  split
  · rename_i hlt
    simp only [Query.grounded]
    refine ⟨⟨by omega, by omega, by omega, h4, fun _ => by omega⟩, by omega⟩
  · rename_i hlt
    rw [if_neg hlt] at hvalid
    simp [Query.is_valid] at hvalid

theorem split_query_left_grounded (fmi : Index) (sq q : Query) (hq : q.grounded fmi) :
    (sq.split_query q).1 = Query.blank ∨ (sq.split_query q).1.grounded fmi := by
  obtain ⟨h1, _, h3, h4, _⟩ := hq
  simp only [Query.split_query]
  split
  · rename_i hgt
    right
    simp only [Query.grounded]
    exact ⟨h1, by omega, h3, h4, fun _ => by omega⟩
  · exact Or.inl rfl

theorem split_query_right_grounded (fmi : Index) (sq q : Query) (hsq : sq.grounded fmi)
    (hq : q.grounded fmi) : (sq.split_query q).2.grounded fmi := by
  obtain ⟨s1, s2, _, _, _⟩ := hsq
  have hq0 := hq
  obtain ⟨_, _, h3, h4, _⟩ := hq0
  simp only [Query.split_query]
  split
  · rename_i hlt
    simp only [Query.grounded]
    exact ⟨by omega, by omega, h3, h4, fun _ => by omega⟩
  · exact hq

theorem split_all_grounded (fmi : Index) (sqs : List Query) (q : Query)
    (hsqs : ∀ x ∈ sqs, x.grounded fmi) (hq : q.grounded fmi) :
    ∀ y ∈ split_all sqs q, y = Query.blank ∨ y.grounded fmi := by
  induction sqs generalizing q with
  | nil =>
    intro y hy
    simp only [split_all, List.mem_singleton] at hy
    exact Or.inr (hy ▸ hq)
  | cons sq rest ih =>
    intro y hy
    simp only [split_all] at hy
    rcases List.mem_cons.mp hy with h | h
    · rw [h]
      exact split_query_left_grounded fmi sq q hq
    · exact ih _ (fun x hx => hsqs x (List.mem_cons_of_mem _ hx))
        (split_query_right_grounded fmi sq q (hsqs sq (List.mem_cons_self _ _)) hq) y h

theorem update_queries_grounded (fmi : Index) (queries : List Query) (q : Query)
    (hqs : ∀ x ∈ queries, x.grounded fmi) (hq : q.grounded fmi) :
    ∀ y ∈ (update_queries queries q).1, y.grounded fmi := by
  intro y hy
  simp only [update_queries] at hy
  split at hy
  · rcases mem_set_insert queries q y hy with h | h
    · exact hqs y h
    · exact h ▸ hq
  · rcases mem_insert_valid _ _ _ y hy with h | ⟨hmem, hvalid⟩
    · exact hqs y h
    · have hsub : ∀ x ∈ (queries.drop
          (scan_start queries q (lower_bound queries q))).take
          (scan_end queries q (lower_bound queries q)
            - scan_start queries q (lower_bound queries q)), x.grounded fmi :=
        fun x hx => hqs x (List.mem_of_mem_drop (List.mem_of_mem_take hx))
      rcases split_all_grounded fmi _ q hsub hq y hmem with hb | hg
      · rw [hb, blank_not_valid] at hvalid
        cases hvalid
      · exact hg

theorem set_insert_all (P : Query → Prop) (queries : List Query) (q : Query)
    (hqs : ∀ x ∈ queries, P x) (hq : P q) : ∀ y ∈ set_insert queries q, P y := by
  intro y hy
  rcases mem_set_insert queries q y hy with h | h
  · exact hqs y h
  · exact h ▸ hq

theorem stay_branch_grounded (fmi : Index) (stay : Bool) (ep_i : Nat → ℚ) (s : Search)
    (pq : Query) (hpq : pq.grounded fmi) (hs : s.grounded fmi) :
    (stay_branch stay ep_i s pq).grounded fmi := by
  unfold stay_branch
  split
  · exact ⟨update_queries_grounded fmi _ _ hs.1 (stay_grounded fmi pq _ hpq), hs.2⟩
  · exact hs

theorem match_branch_grounded (fmi : Index) (kmer_count : Nat) (ep_i : Nat → ℚ)
    (seed_len : Int) (pq : Query)
    (hF : ∀ j, j < kmer_count → 1 ≤ fmi.mer_f_starts.getD j 0)
    (hrank : ∀ c, c < kmer_count → ∀ i : Int, 0 ≤ i → 0 ≤ get_tally fmi c i)
    (hpq : pq.grounded fmi) (s : Search) (hs : s.grounded fmi) (n : Nat)
    (hn : n < kmer_count) : (match_branch fmi ep_i seed_len pq s n).grounded fmi := by
  unfold match_branch
  split
  · split
    · rename_i hvalid
      have hnq := next_valid_grounded fmi kmer_count pq n (ep_i n) hn hF hrank hpq hvalid
      split
      · exact ⟨update_queries_grounded fmi _ _ hs.1 hnq.1, hs.2⟩
      · exact ⟨hs.1, set_insert_all (fun x => x.grounded fmi ∧ x.start_ ≤ x.end_) _ _ hs.2 hnq⟩
    · exact hs
  · exact hs

theorem expand_query_grounded (fmi : Index) (kmer_count : Nat)
    (get_neighbors : Nat → List Nat) (hnb : ∀ k, ∀ n ∈ get_neighbors k, n < kmer_count)
    (stay : Bool) (ep_i : Nat → ℚ) (seed_len : Int)
    (hF : ∀ j, j < kmer_count → 1 ≤ fmi.mer_f_starts.getD j 0)
    (hrank : ∀ c, c < kmer_count → ∀ i : Int, 0 ≤ i → 0 ≤ get_tally fmi c i)
    (s : Search) (pq : Query) (hpq : pq.grounded fmi) (hs : s.grounded fmi) :
    (expand_query fmi get_neighbors stay ep_i seed_len s pq).grounded fmi := by
  unfold expand_query
  have h0 := stay_branch_grounded fmi stay ep_i s pq hpq hs
  have hns := hnb pq.k_id_
  generalize stay_branch stay ep_i s pq = s0 at h0
  generalize get_neighbors pq.k_id_ = ns at hns
  induction ns generalizing s0 with
  | nil => exact h0
  | cons n rest ih =>
    rw [List.foldl_cons]
    exact ih _ (match_branch_grounded fmi kmer_count ep_i seed_len pq hF hrank hpq s0 h0 n
      (hns n (List.mem_cons_self _ _))) (fun x hx => hns x (List.mem_cons_of_mem _ hx))

theorem expand_all_grounded (fmi : Index) (kmer_count : Nat)
    (get_neighbors : Nat → List Nat) (hnb : ∀ k, ∀ n ∈ get_neighbors k, n < kmer_count)
    (stay : Bool) (ep_i : Nat → ℚ) (seed_len : Int)
    (hF : ∀ j, j < kmer_count → 1 ≤ fmi.mer_f_starts.getD j 0)
    (hrank : ∀ c, c < kmer_count → ∀ i : Int, 0 ≤ i → 0 ≤ get_tally fmi c i)
    (prev : List Query) (hprev : ∀ x ∈ prev, x.grounded fmi) (s : Search)
    (hs : s.grounded fmi) :
    (prev.foldl (expand_query fmi get_neighbors stay ep_i seed_len) s).grounded fmi := by
  induction prev generalizing s with
  | nil => exact hs
  | cons pq rest ih =>
    rw [List.foldl_cons]
    exact ih (fun x hx => hprev x (List.mem_cons_of_mem _ hx)) _
      (expand_query_grounded fmi kmer_count get_neighbors hnb stay ep_i seed_len hF hrank s pq
        (hprev pq (List.mem_cons_self _ _)) hs)

theorem extend_loop_grounded (fmi : Index) (kmer_count : Nat)
    (get_neighbors : Nat → List Nat) (hnb : ∀ k, ∀ n ∈ get_neighbors k, n < kmer_count)
    (ep : Nat → Nat → ℚ) (stay_prob : Nat → ℚ) (seed_len : Int)
    (hF : ∀ j, j < kmer_count → 1 ≤ fmi.mer_f_starts.getD j 0)
    (hrank : ∀ c, c < kmer_count → ∀ i : Int, 0 ≤ i → 0 ≤ get_tally fmi c i)
    (prev : List Query) (hprev : ∀ x ∈ prev, x.grounded fmi) (fuel : Nat) (s : Search)
    (hs : s.grounded fmi) :
    (extend_loop fmi get_neighbors ep stay_prob seed_len prev fuel s).grounded fmi := by
  induction fuel generalizing s with
  | zero => exact hs
  | succ i ih =>
    have hstep := expand_all_grounded fmi kmer_count get_neighbors hnb
      (stay_allowed (stay_prob i)) (ep i) seed_len hF hrank prev hprev
      { s with mer_matched := false } hs
    rw [extend_loop]
    split
    · split
      · exact ih _ hstep
      · exact hstep
    · exact hs

theorem seed_frontier_grounded (fmi : Index) (kmer_count : Nat) (ep_row : Nat → ℚ)
    (hF : ∀ j, j < kmer_count → 1 ≤ fmi.mer_f_starts.getD j 0)
    (hcnt : ∀ j, 0 ≤ fmi.mer_counts.getD j 0) (frontier : List Query)
    (hfr : ∀ x ∈ frontier, x.grounded fmi) :
    ∀ x ∈ seed_frontier fmi kmer_count ep_row frontier, x.grounded fmi := by
  unfold seed_frontier
  have hks : ∀ k ∈ List.range kmer_count, k < kmer_count := fun k hk => List.mem_range.mp hk
  generalize List.range kmer_count = ks at hks
  induction ks generalizing frontier with
  | nil => exact hfr
  | cons k rest ih =>
    rw [List.foldl_cons]
    apply ih _ _ (fun x hx => hks x (List.mem_cons_of_mem _ hx))
    split
    · exact update_queries_grounded fmi _ _ hfr
        (initial_grounded fmi kmer_count k _ (hks k (List.mem_cons_self _ _)) hF hcnt)
    · exact hfr

theorem sweep_step_grounded (fmi : Index) (kmer_count : Nat)
    (get_neighbors : Nat → List Nat) (hnb : ∀ k, ∀ n ∈ get_neighbors k, n < kmer_count)
    (ep : Nat → Nat → ℚ) (stay_prob : Nat → ℚ) (map_start : Nat) (seed_len : Int)
    (hF : ∀ j, j < kmer_count → 1 ≤ fmi.mer_f_starts.getD j 0)
    (hcnt : ∀ j, 0 ≤ fmi.mer_counts.getD j 0)
    (hrank : ∀ c, c < kmer_count → ∀ i : Int, 0 ≤ i → 0 ≤ get_tally fmi c i)
    (st : Frontiers) (hst : st.grounded fmi) (seed_end : Nat) :
    (sweep_step fmi kmer_count get_neighbors ep stay_prob map_start seed_len st
      seed_end).grounded fmi := by
  have hback := seed_frontier_grounded fmi kmer_count (ep map_start) hF hcnt st.back hst.1
  have hloop := extend_loop_grounded fmi kmer_count get_neighbors hnb ep stay_prob seed_len
    hF hrank (seed_frontier fmi kmer_count (ep map_start) st.back) hback seed_end
    { next := st.next, finished := st.finished, mer_matched := true } ⟨hst.2.1, hst.2.2⟩
  exact ⟨hback, hloop.1, hloop.2⟩

theorem sweep_loop_grounded (fmi : Index) (kmer_count : Nat)
    (get_neighbors : Nat → List Nat) (hnb : ∀ k, ∀ n ∈ get_neighbors k, n < kmer_count)
    (ep : Nat → Nat → ℚ) (stay_prob : Nat → ℚ) (map_start : Nat) (seed_len : Int)
    (hF : ∀ j, j < kmer_count → 1 ≤ fmi.mer_f_starts.getD j 0)
    (hcnt : ∀ j, 0 ≤ fmi.mer_counts.getD j 0)
    (hrank : ∀ c, c < kmer_count → ∀ i : Int, 0 ≤ i → 0 ≤ get_tally fmi c i)
    (count seed_end : Nat) (st : Frontiers) (hst : st.grounded fmi) :
    (sweep_loop fmi kmer_count get_neighbors ep stay_prob map_start seed_len count seed_end
      st).grounded fmi := by
  induction count generalizing seed_end st with
  | zero => exact hst
  | succ c ih =>
    rw [sweep_loop]
    exact ih _ _ (sweep_step_grounded fmi kmer_count get_neighbors hnb ep stay_prob map_start
      seed_len hF hcnt hrank st hst seed_end)

theorem lf_search_grounded (kmer_count : Nat) (compare_kmers : Nat → Nat → Int)
    (mer_seq suffix_ar : List Nat) (tally_dist : Nat) (hD : 1 ≤ tally_dist)
    (hSA : suffix_ar.length = mer_seq.length) (get_neighbors : Nat → List Nat)
    (hnb : ∀ k, ∀ n ∈ get_neighbors k, n < kmer_count) (ep : Nat → Nat → ℚ)
    (stay_prob : Nat → ℚ) (map_start : Nat) (seed_len : Int) :
    (lf_search (build kmer_count compare_kmers mer_seq suffix_ar tally_dist) kmer_count
      get_neighbors ep stay_prob map_start seed_len).grounded
      (build kmer_count compare_kmers mer_seq suffix_ar tally_dist) := by
  unfold lf_search
  apply sweep_loop_grounded _ _ _ hnb
  · exact fun j hj => build_f_start_pos kmer_count compare_kmers mer_seq suffix_ar tally_dist
      j hj
  · exact build_counts_nonneg kmer_count compare_kmers mer_seq suffix_ar tally_dist
  · exact fun c hc i hi => get_tally_build_nonneg kmer_count compare_kmers mer_seq suffix_ar
      tally_dist hD hSA c hc i hi
  · refine ⟨?_, ?_, ?_⟩ <;> intro x hx <;> cases hx

theorem all_symbols_lt (k : Nat) : ∀ n ∈ all_symbols k, n < 4 := by
  intro n hn
  simp only [all_symbols, List.mem_cons, List.mem_singleton, List.not_mem_nil, or_false] at hn
  omega

/-- After the build, for every symbol `c`, `mer_f_starts[c]` is 1 plus the sum of
`mer_counts[d]` over the symbols `d` with `compare_kmers c d > 0` (lines 75-80). -/
theorem build_f_starts_formula (kmer_count : Nat) (compare_kmers : Nat → Nat → Int)
    (mer_seq suffix_ar : List Nat) (tally_dist : Nat) (c : Nat) (hc : c < kmer_count) :
    (build kmer_count compare_kmers mer_seq suffix_ar tally_dist).mer_f_starts[c]?
        = some (1 + (((List.range kmer_count).filter
            (fun d => decide (compare_kmers c d > 0))).map
            (fun d => (build kmer_count compare_kmers mer_seq suffix_ar
              tally_dist).mer_counts.getD d 0)).sum) := by
  simp only [build, List.getElem?_map, List.getElem?_range hc, Option.map_some', f_start]
  rw [foldl_cond_add (fun d => compare_kmers c d > 0)]

/-! ## Lemmas on the insert and the search as they run -/

theorem split_all_run_eq (sqs : List Query) (q : Query) (pieces : List Query)
    (h : split_all_run sqs q = some pieces) : pieces = split_all sqs q := by
  induction sqs generalizing q pieces with
  | nil =>
    simp only [split_all_run, Option.some.injEq] at h
    simp only [split_all]
    exact h.symm
  | cons sq rest ih =>
    simp only [split_all_run] at h
    split at h
    · rw [Option.map_eq_some'] at h
      obtain ⟨l, hl, rfl⟩ := h
      simp only [split_all]
      rw [ih _ _ hl]
    · cases h

theorem update_queries_run_eq (queries : List Query) (q : Query) (r : List Query × Int)
    (h : update_queries_run queries q = some r) : r = update_queries queries q := by
  unfold update_queries_run at h
  unfold update_queries
  dsimp only
  split at h
  · rename_i heq
    rw [if_pos heq]
    exact (Option.some.inj h).symm
  · rename_i hne
    rw [if_neg hne]
    rw [Option.map_eq_some'] at h
    obtain ⟨l, hl, rfl⟩ := h
    rw [split_all_run_eq _ _ _ hl]

theorem insert_all_run_eq (queries inserted fr : List Query)
    (h : insert_all_run queries inserted = some fr) : fr = insert_all queries inserted := by
  induction inserted generalizing queries with
  | nil =>
    simp only [insert_all_run, Option.some.injEq] at h
    simp only [insert_all, List.foldl_nil]
    exact h.symm
  | cons q rest ih =>
    simp only [insert_all_run, Option.bind_eq_some] at h
    obtain ⟨r, hr, hrest⟩ := h
    have hr2 := update_queries_run_eq queries q r hr
    have := ih _ hrest
    rw [this, hr2]
    simp only [insert_all, List.foldl_cons]

theorem insert_all_keeps (queries inserted : List Query) :
    (∀ x ∈ queries, x ∈ insert_all queries inserted)
      ∧ ∀ y ∈ insert_all queries inserted,
          y ∈ queries ∨ ∃ q ∈ inserted, y.same_payload q := by
  induction inserted generalizing queries with
  | nil =>
    exact ⟨fun x hx => hx, fun y hy => Or.inl hy⟩
  | cons q rest ih =>
    obtain ⟨ih1, ih2⟩ := ih (update_queries queries q).1
    constructor
    · intro x hx
      exact ih1 x (mem_update_queries_of_mem queries q x hx)
    · intro y hy
      rcases ih2 y hy with h | ⟨q2, hq2, hs⟩
      · rcases mem_update_queries queries q y h with h | h
        · exact Or.inl h
        · exact Or.inr ⟨q, List.mem_cons_self _ _, h⟩
      · exact Or.inr ⟨q2, List.mem_cons_of_mem _ hq2, hs⟩

theorem set_insert_range (queries : List Query) (q : Query) :
    ∃ x ∈ set_insert queries q, x.start_ = q.start_ ∧ x.end_ = q.end_ := by
  induction queries with
  | nil => exact ⟨q, by simp [set_insert], rfl, rfl⟩
  | cons x xs ih =>
    simp only [set_insert]
    split
    · obtain ⟨y, hy, h⟩ := ih
      exact ⟨y, List.mem_cons_of_mem _ hy, h⟩
    · split
      · exact ⟨q, List.mem_cons_self _ _, rfl, rfl⟩
      · rename_i h1 h2
        refine ⟨x, List.mem_cons_self _ _, ?_⟩
        simp only [Query.lt, Bool.or_eq_true, Bool.and_eq_true, decide_eq_true_eq, not_or,
          not_and, not_lt] at h1 h2
        obtain ⟨a1, a2⟩ := h1
        obtain ⟨b1, b2⟩ := h2
        have hs : x.start_ = q.start_ := by omega
        have := a2 hs
        have := b2 hs.symm
        exact ⟨hs, by omega⟩

theorem insert_valid_range (pieces queries : List Query) (count : Int) (y : Query)
    (hy : y ∈ pieces) (hv : y.is_valid = true) :
    ∃ x ∈ (insert_valid queries pieces count).1, x.start_ = y.start_ ∧ x.end_ = y.end_ := by
  induction pieces generalizing queries count with
  | nil => cases hy
  | cons sq rest ih =>
    simp only [insert_valid]
    rcases List.mem_cons.mp hy with h | h
    · subst h
      rw [if_pos hv]
      obtain ⟨x, hx, hr⟩ := set_insert_range queries y
      exact ⟨x, mem_insert_valid_of_mem rest _ _ x hx, hr⟩
    · split
      · exact ih _ _ h
      · exact ih _ _ h

theorem split_all_covers (sqs : List Query) (q : Query) (p : Int) (hm : 1 ≤ q.match_len_)
    (hp : q.covers p) :
    (∃ sq ∈ sqs, sq.covers p) ∨ ∃ y ∈ split_all sqs q, y.covers p ∧ y.is_valid = true := by
  induction sqs generalizing q with
  | nil =>
    right
    refine ⟨q, by simp [split_all], hp, ?_⟩
    obtain ⟨h1, h2⟩ := hp
    have hle : q.start_ ≤ q.end_ := by omega
    have hne : q.match_len_ ≠ 0 := by omega
    simp [Query.is_valid, hle, hne]
  | cons sq rest ih =>
    obtain ⟨h1, h2⟩ := hp
    by_cases hlt : p < sq.start_
    · right
      have hgt : sq.start_ > q.start_ := by omega
      refine ⟨(sq.split_query q).1, by simp [split_all], ?_, ?_⟩
      · simp only [Query.split_query, if_pos hgt, Query.covers]
        omega
      · have hne : q.match_len_ ≠ 0 := by omega
        have hle : q.start_ ≤ sq.start_ - 1 := by omega
        simp [Query.split_query, if_pos hgt, Query.is_valid, hle, hne]
    · by_cases hend : sq.end_ < q.end_
      · by_cases hpe : p ≤ sq.end_
        · left
          exact ⟨sq, List.mem_cons_self _ _, by omega, hpe⟩
        · have h2q : (sq.split_query q).2 = { q with start_ := sq.end_ + 1 } := by
            simp only [Query.split_query, if_pos hend]
          have hcov : (sq.split_query q).2.covers p := by
            rw [h2q]
            simp only [Query.covers]
            omega
          have hm2 : 1 ≤ (sq.split_query q).2.match_len_ := by
            rw [h2q]
            exact hm
          rcases ih (sq.split_query q).2 hm2 hcov with ⟨x, hx, hc⟩ | ⟨y, hy, hc⟩
          · exact Or.inl ⟨x, List.mem_cons_of_mem _ hx, hc⟩
          · exact Or.inr ⟨y, by simp only [split_all]; exact List.mem_cons_of_mem _ hy, hc⟩
      · have h2q : (sq.split_query q).2 = q := by
          simp only [Query.split_query, if_neg hend]
        rcases ih q hm ⟨h1, h2⟩ with ⟨x, hx, hc⟩ | ⟨y, hy, hc⟩
        · exact Or.inl ⟨x, List.mem_cons_of_mem _ hx, hc⟩
        · refine Or.inr ⟨y, ?_, hc⟩
          simp only [split_all]
          rw [h2q]
          exact List.mem_cons_of_mem _ hy

theorem update_queries_covers (queries : List Query) (q : Query) (p : Int)
    (hm : 1 ≤ q.match_len_) (hp : q.covers p) :
    ∃ x ∈ (update_queries queries q).1, x.covers p := by
  simp only [update_queries]
  split
  · obtain ⟨x, hx, e1, e2⟩ := set_insert_range queries q
    refine ⟨x, hx, ?_⟩
    obtain ⟨h1, h2⟩ := hp
    exact ⟨by omega, by omega⟩
  · rcases split_all_covers
      ((queries.drop (scan_start queries q (lower_bound queries q))).take
        (scan_end queries q (lower_bound queries q)
          - scan_start queries q (lower_bound queries q))) q p hm hp
      with ⟨sq, hsq, hc⟩ | ⟨y, hy, hc, hv⟩
    · exact ⟨sq, mem_insert_valid_of_mem _ _ _ sq
        (List.mem_of_mem_drop (List.mem_of_mem_take hsq)), hc⟩
    · obtain ⟨x, hx, e1, e2⟩ := insert_valid_range _ queries 0 y hy hv
      refine ⟨x, hx, ?_⟩
      obtain ⟨h1, h2⟩ := hc
      exact ⟨by omega, by omega⟩

theorem insert_all_covers (queries inserted : List Query)
    (hm : ∀ q ∈ inserted, 1 ≤ q.match_len_) :
    ∀ q ∈ inserted, ∀ p, q.covers p → ∃ x ∈ insert_all queries inserted, x.covers p := by
  induction inserted generalizing queries with
  | nil =>
    intro q hq
    cases hq
  | cons q0 rest ih =>
    intro q hq p hp
    have hfold : insert_all queries (q0 :: rest)
        = insert_all (update_queries queries q0).1 rest := by
      simp only [insert_all, List.foldl_cons]
    rw [hfold]
    rcases List.mem_cons.mp hq with h | h
    · subst h
      obtain ⟨x, hx, hc⟩ := update_queries_covers queries q p
        (hm q (List.mem_cons_self _ _)) hp
      exact ⟨x, (insert_all_keeps _ rest).1 x hx, hc⟩
    · exact ih _ (fun x hx => hm x (List.mem_cons_of_mem _ hx)) q h p hp

theorem foldl_bind_none {α β : Type} (f : α → β → Option α) (l : List β) :
    l.foldl (fun acc b => acc.bind (fun a => f a b)) none = none := by
  induction l with
  | nil => rfl
  | cons b rest ih =>
    rw [List.foldl_cons]
    exact ih

theorem foldl_bind_eq {α β : Type} (f : α → β → Option α) (g : α → β → α) (l : List β)
    (hfg : ∀ a, ∀ b ∈ l, ∀ r, f a b = some r → r = g a b) (init : Option α) (r : α)
    (h : l.foldl (fun acc b => acc.bind (fun a => f a b)) init = some r) :
    ∃ a, init = some a ∧ r = l.foldl g a := by
  induction l generalizing init with
  | nil =>
    rw [List.foldl_nil] at h
    exact ⟨r, h, rfl⟩
  | cons b rest ih =>
    rw [List.foldl_cons] at h
    obtain ⟨a1, h1, hr⟩ := ih (fun a b hb => hfg a b (List.mem_cons_of_mem _ hb)) _ h
    rw [Option.bind_eq_some] at h1
    obtain ⟨a, ha, hf⟩ := h1
    refine ⟨a, ha, ?_⟩
    rw [List.foldl_cons, ← hfg a b (List.mem_cons_self _ _) a1 hf]
    exact hr

theorem stay_branch_run_eq (stay : Bool) (ep_i : Nat → ℚ) (s : Search) (pq : Query)
    (r : Search) (h : stay_branch_run stay ep_i s pq = some r) :
    r = stay_branch stay ep_i s pq := by
  unfold stay_branch_run at h
  unfold stay_branch
  split at h
  · rename_i hc
    rw [if_pos hc]
    rw [Option.map_eq_some'] at h
    obtain ⟨u, hu, rfl⟩ := h
    rw [update_queries_run_eq _ _ _ hu]
  · rename_i hc
    rw [if_neg hc]
    exact (Option.some.inj h).symm

theorem match_branch_run_eq (fmi : Index) (ep_i : Nat → ℚ) (seed_len : Int) (pq : Query)
    (s : Search) (n : Nat) (r : Search)
    (h : match_branch_run fmi ep_i seed_len pq s n = some r) :
    r = match_branch fmi ep_i seed_len pq s n := by
  unfold match_branch_run at h
  unfold match_branch
  split at h
  · rename_i h1
    rw [if_pos h1]
    split at h
    · rename_i h2
      rw [if_pos h2]
      split at h
      · rename_i h3
        rw [if_pos h3]
        rw [Option.map_eq_some'] at h
        obtain ⟨u, hu, rfl⟩ := h
        rw [update_queries_run_eq _ _ _ hu]
      · rename_i h3
        rw [if_neg h3]
        exact (Option.some.inj h).symm
    · rename_i h2
      rw [if_neg h2]
      exact (Option.some.inj h).symm
  · rename_i h1
    rw [if_neg h1]
    exact (Option.some.inj h).symm

theorem expand_query_run_eq (fmi : Index) (get_neighbors : Nat → List Nat) (stay : Bool)
    (ep_i : Nat → ℚ) (seed_len : Int) (s : Search) (pq : Query) (r : Search)
    (h : expand_query_run fmi get_neighbors stay ep_i seed_len s pq = some r) :
    r = expand_query fmi get_neighbors stay ep_i seed_len s pq := by
  unfold expand_query_run at h
  unfold expand_query
  obtain ⟨s0, hs0, hr⟩ := foldl_bind_eq
    (fun s1 n => match_branch_run fmi ep_i seed_len pq s1 n)
    (match_branch fmi ep_i seed_len pq) _
    (fun a b _ r hab => match_branch_run_eq fmi ep_i seed_len pq a b r hab) _ r h
  rw [← stay_branch_run_eq stay ep_i s pq s0 hs0]
  exact hr

theorem expand_all_run_eq (fmi : Index) (get_neighbors : Nat → List Nat) (stay : Bool)
    (ep_i : Nat → ℚ) (seed_len : Int) (prev : List Query) (s r : Search)
    (h : expand_all_run fmi get_neighbors stay ep_i seed_len prev s = some r) :
    r = prev.foldl (expand_query fmi get_neighbors stay ep_i seed_len) s := by
  unfold expand_all_run at h
  obtain ⟨s0, hs0, hr⟩ := foldl_bind_eq
    (fun s1 pq => expand_query_run fmi get_neighbors stay ep_i seed_len s1 pq)
    (expand_query fmi get_neighbors stay ep_i seed_len) _
    (fun a b _ r hab => expand_query_run_eq fmi get_neighbors stay ep_i seed_len a b r hab)
    _ r h
  rw [Option.some.inj hs0]
  exact hr

theorem extend_loop_run_eq (fmi : Index) (get_neighbors : Nat → List Nat)
    (ep : Nat → Nat → ℚ) (stay_prob : Nat → ℚ) (seed_len : Int) (prev : List Query)
    (fuel : Nat) (s r : Search)
    (h : extend_loop_run fmi get_neighbors ep stay_prob seed_len prev fuel s = some r) :
    r = extend_loop fmi get_neighbors ep stay_prob seed_len prev fuel s := by
  induction fuel generalizing s with
  | zero =>
    simp only [extend_loop_run, Option.some.injEq] at h
    simp only [extend_loop]
    exact h.symm
  | succ i ih =>
    rw [extend_loop_run] at h
    rw [extend_loop]
    split at h
    · rename_i hm
      rw [if_pos hm]
      rw [Option.bind_eq_some] at h
      obtain ⟨s1, hs1, h⟩ := h
      have e1 := expand_all_run_eq fmi get_neighbors _ _ seed_len prev _ s1 hs1
      rw [← e1]
      split at h
      · rename_i hm1
        rw [if_pos hm1]
        exact ih _ h
      · rename_i hm1
        rw [if_neg hm1]
        exact (Option.some.inj h).symm
    · rename_i hm
      rw [if_neg hm]
      exact (Option.some.inj h).symm

theorem seed_frontier_run_eq (fmi : Index) (kmer_count : Nat) (ep_row : Nat → ℚ)
    (frontier r : List Query)
    (h : seed_frontier_run fmi kmer_count ep_row frontier = some r) :
    r = seed_frontier fmi kmer_count ep_row frontier := by
  unfold seed_frontier_run at h
  unfold seed_frontier
  obtain ⟨s0, hs0, hr⟩ := foldl_bind_eq
    (fun fr k =>
      if ep_row k ≥ EVENT_THRESH then
        (update_queries_run fr (Query.initial fmi k (ep_row k))).map (fun r => r.1)
      else some fr)
    (fun fr k =>
      if ep_row k ≥ EVENT_THRESH then (update_queries fr (Query.initial fmi k (ep_row k))).1
      else fr) _
    (fun a b _ r hab => by
      dsimp only at hab ⊢
      split at hab
      · rename_i hc
        rw [if_pos hc]
        rw [Option.map_eq_some'] at hab
        obtain ⟨u, hu, rfl⟩ := hab
        rw [update_queries_run_eq _ _ _ hu]
      · rename_i hc
        rw [if_neg hc]
        exact (Option.some.inj hab).symm)
    _ r h
  rw [Option.some.inj hs0]
  exact hr

theorem sweep_step_run_eq (fmi : Index) (kmer_count : Nat) (get_neighbors : Nat → List Nat)
    (ep : Nat → Nat → ℚ) (stay_prob : Nat → ℚ) (map_start : Nat) (seed_len : Int)
    (st : Frontiers) (seed_end : Nat) (r : Frontiers)
    (h : sweep_step_run fmi kmer_count get_neighbors ep stay_prob map_start seed_len st
      seed_end = some r) :
    r = sweep_step fmi kmer_count get_neighbors ep stay_prob map_start seed_len st
      seed_end := by
  unfold sweep_step_run at h
  rw [Option.bind_eq_some] at h
  obtain ⟨back, hb, h⟩ := h
  rw [Option.map_eq_some'] at h
  obtain ⟨s1, hs1, rfl⟩ := h
  have e1 := seed_frontier_run_eq fmi kmer_count _ _ back hb
  have e2 := extend_loop_run_eq fmi get_neighbors ep stay_prob seed_len back seed_end _ s1 hs1
  unfold sweep_step
  rw [← e1, ← e2]

theorem sweep_loop_run_eq (fmi : Index) (kmer_count : Nat) (get_neighbors : Nat → List Nat)
    (ep : Nat → Nat → ℚ) (stay_prob : Nat → ℚ) (map_start : Nat) (seed_len : Int)
    (count seed_end : Nat) (st r : Frontiers)
    (h : sweep_loop_run fmi kmer_count get_neighbors ep stay_prob map_start seed_len count
      seed_end st = some r) :
    r = sweep_loop fmi kmer_count get_neighbors ep stay_prob map_start seed_len count
      seed_end st := by
  induction count generalizing seed_end st with
  | zero =>
    simp only [sweep_loop_run, Option.some.injEq] at h
    simp only [sweep_loop]
    exact h.symm
  | succ c ih =>
    rw [sweep_loop_run, Option.bind_eq_some] at h
    obtain ⟨st1, h1, h⟩ := h
    rw [sweep_loop, ← sweep_step_run_eq fmi kmer_count get_neighbors ep stay_prob map_start
      seed_len st seed_end st1 h1]
    exact ih _ _ h

/-- Whenever the search runs through, its containers are those of `lf_search`. -/
theorem lf_search_run_eq (fmi : Index) (kmer_count : Nat) (get_neighbors : Nat → List Nat)
    (ep : Nat → Nat → ℚ) (stay_prob : Nat → ℚ) (map_start : Nat) (seed_len : Int)
    (r : Frontiers)
    (h : lf_search_run fmi kmer_count get_neighbors ep stay_prob map_start seed_len
      = some r) :
    r = lf_search fmi kmer_count get_neighbors ep stay_prob map_start seed_len :=
  sweep_loop_run_eq fmi kmer_count get_neighbors ep stay_prob map_start seed_len _ _ _ r h

/-! ## Statements of the specification -/

/-- C1: on the tables built by the constructor, for every tally distance `D ≥ 1`,
every symbol `c` and every index `i` below the reference length, `get_tally c i`
equals the naive number of positions `j ≤ i` with `bwt[j] = c`; hence the value is the
same for any two tally distances `D1` and `D2`. -/
theorem get_tally_eq_naive_count (kmer_count : Nat) (compare_kmers : Nat → Nat → Int)
    (mer_seq suffix_ar : List Nat) (D1 D2 : Nat) (hD1 : 1 ≤ D1) (hD2 : 1 ≤ D2)
    (hSA : suffix_ar.length = mer_seq.length) (c i : Nat) (hc : c < kmer_count)
    (hi : i < mer_seq.length) :
    get_tally (build kmer_count compare_kmers mer_seq suffix_ar D1) c (i : Int)
        = ((occ (build kmer_count compare_kmers mer_seq suffix_ar D1).bwt c i : Nat) : Int)
      ∧ get_tally (build kmer_count compare_kmers mer_seq suffix_ar D1) c (i : Int)
        = get_tally (build kmer_count compare_kmers mer_seq suffix_ar D2) c (i : Int) := by
  have h1 := get_tally_build kmer_count compare_kmers mer_seq suffix_ar D1 hD1 hSA c i hc hi
  have h2 := get_tally_build kmer_count compare_kmers mer_seq suffix_ar D2 hD2 hSA c i hc hi
  refine ⟨h1, ?_⟩
  rw [h1, h2, build_bwt kmer_count compare_kmers mer_seq suffix_ar D1 hD1 hSA,
    build_bwt kmer_count compare_kmers mer_seq suffix_ar D2 hD2 hSA]

/-- C1 at `T = acgtacgt`, tally distances 2 and 3, symbol `c`, index 5. -/
theorem get_tally_eq_naive_count_witness :
    (1 ≤ 2 ∧ 1 ≤ 3 ∧ [0, 4, 1, 5, 2, 6, 3, 7].length = [0, 1, 2, 3, 0, 1, 2, 3].length
      ∧ 1 < 4 ∧ 5 < [0, 1, 2, 3, 0, 1, 2, 3].length)
    ∧ (get_tally (build 4 nat_compare [0, 1, 2, 3, 0, 1, 2, 3] [0, 4, 1, 5, 2, 6, 3, 7] 2)
          1 ((5 : Nat) : Int)
        = ((occ (build 4 nat_compare [0, 1, 2, 3, 0, 1, 2, 3]
            [0, 4, 1, 5, 2, 6, 3, 7] 2).bwt 1 5 : Nat) : Int)
      ∧ get_tally (build 4 nat_compare [0, 1, 2, 3, 0, 1, 2, 3] [0, 4, 1, 5, 2, 6, 3, 7] 2)
          1 ((5 : Nat) : Int)
        = get_tally (build 4 nat_compare [0, 1, 2, 3, 0, 1, 2, 3]
            [0, 4, 1, 5, 2, 6, 3, 7] 3) 1 ((5 : Nat) : Int)) :=
  ⟨by decide,
    get_tally_eq_naive_count 4 nat_compare [0, 1, 2, 3, 0, 1, 2, 3] [0, 4, 1, 5, 2, 6, 3, 7]
      2 3 (by decide) (by decide) (by decide) 1 5 (by decide) (by decide)⟩

/-- C2 (failing input): for the reference `T = [1, 0]` with suffix array `[1, 0]`, row 1
has `suffix_ar[1] = 0`, so the claim puts `T[(0 - 1) mod 2] = T[1] = 0` there; the
built BWT is `[1, 1]` and holds `T[suffix_ar[1]] = T[0] = 1` in row 1. -/
theorem bwt_wrap_row_reads_suffix_ar_last :
    (build 2 nat_compare [1, 0] [1, 0] 1).bwt = [1, 1]
      ∧ (build 2 nat_compare [1, 0] [1, 0] 1).suffix_ar.getD 1 0 = 0
      ∧ ([1, 0] : List Nat).getD
          (((build 2 nat_compare [1, 0] [1, 0] 1).suffix_ar.getD 1 0 + 2 - 1) % 2) 0 = 0
      ∧ (build 2 nat_compare [1, 0] [1, 0] 1).bwt.getD 1 0 = 1 := by
  decide

/-- C4 (failing input): for the reference `T = [1, 0]` with its sorted suffix array
`[1, 0]` the initial interval of symbol 1 is `[1, 2]`, two rows, although row 1 is the
only row whose suffix starts with 1 (row 0 starts with 0 and there is no row 2).  For
`T = [0, 1]` with suffix array `[0, 1]` the initial interval of symbol 0 is `[1, 1]`,
although row 0 is the only row whose suffix starts with 0. -/
theorem initial_interval_misses_rows :
    ((build 2 nat_compare [1, 0] [1, 0] 1).mer_counts.getD 1 0 = 2
      ∧ (Query.initial (build 2 nat_compare [1, 0] [1, 0] 1) 1 0).start_ = 1
      ∧ (Query.initial (build 2 nat_compare [1, 0] [1, 0] 1) 1 0).end_ = 2
      ∧ (List.range 2).filter (fun i =>
          decide ([1, 0].getD ((build 2 nat_compare [1, 0] [1, 0] 1).suffix_ar.getD i 0) 0 = 1))
        = [1])
    ∧ ((build 2 nat_compare [0, 1] [0, 1] 1).mer_counts.getD 0 0 = 1
      ∧ (Query.initial (build 2 nat_compare [0, 1] [0, 1] 1) 0 0).start_ = 1
      ∧ (Query.initial (build 2 nat_compare [0, 1] [0, 1] 1) 0 0).end_ = 1
      ∧ (List.range 2).filter (fun i =>
          decide ([0, 1].getD ((build 2 nat_compare [0, 1] [0, 1] 1).suffix_ar.getD i 0) 0 = 0))
        = [0]) := by
  decide

/-- C5 (failing input): for `T = acgtacgt` with the natural order the constructor does not
return.  The suffixes at 4 and 0 agree on the four symbols of the shorter one, so the
comparator called on them, in either order, reads `mer_seq.at(8)` and throws; the sort
of line 33 makes that call when it inserts the start 4, and no counts and no F array
exist.  With the cyclic comparison of the specification the same sort returns the suffix
array `0, 4, 1, 5, 2, 6, 3, 7`, for which lines 44-80 give the counts `2, 2, 2, 2` and the
starts `1, 3, 5, 7` of the claim.  For `T = acgt` the constructor returns. -/
theorem acgtacgt_sort_throws :
    suffix_less nat_compare acgt_ref 4 0 = none
      ∧ suffix_less nat_compare acgt_ref 0 4 = none
      ∧ sort_suffixes nat_compare acgt_ref = none
      ∧ construct_from_reference 4 nat_compare acgt_ref 2 = none
      ∧ insertion_sort (fun a b => some (rotation_less nat_compare acgt_ref a b))
          (List.range 8) = some acgt_sa
      ∧ (build 4 nat_compare acgt_ref acgt_sa 2).mer_counts = [2, 2, 2, 2]
      ∧ (build 4 nat_compare acgt_ref acgt_sa 2).mer_f_starts = [1, 3, 5, 7]
      ∧ construct_from_reference 4 nat_compare [0, 1, 2, 3] 1 = some acgt4_index := by
  decide

/-- C6 (failing input): for the reference `T = [1, 0]` with suffix array `[1, 0]` the
built counts are 0 for symbol 0 and 2 for symbol 1, while each symbol occurs once in
`T`. -/
theorem mer_counts_miscount :
    (build 2 nat_compare [1, 0] [1, 0] 1).mer_counts = [0, 2]
      ∧ ([1, 0] : List Nat).count 0 = 1 ∧ ([1, 0] : List Nat).count 1 = 1 := by
  decide

/-- C7: after a build with tally distance `D ≥ 1` over a reference of length `n`, the
tally table has one row per symbol, every row has `n / D + 1` entries, and for every
symbol `c` and every table index `b` the entry `tally[c][b]` is the number of
occurrences of `c` in `bwt[0 .. min (b * D) (n - 1)]`; in particular no entry keeps the
initial value `-1`. -/
theorem tally_table_counts (kmer_count : Nat) (compare_kmers : Nat → Nat → Int)
    (mer_seq suffix_ar : List Nat) (tally_dist : Nat) (hD : 1 ≤ tally_dist)
    (hSA : suffix_ar.length = mer_seq.length) (c b : Nat) (hc : c < kmer_count)
    (hb : b < mer_seq.length / tally_dist + 1) :
    (build kmer_count compare_kmers mer_seq suffix_ar tally_dist).mer_tally.length
        = kmer_count
      ∧ ∃ row,
          (build kmer_count compare_kmers mer_seq suffix_ar tally_dist).mer_tally[c]?
            = some row
          ∧ row.length = mer_seq.length / tally_dist + 1
          ∧ row[b]? = some ((occ
              (build kmer_count compare_kmers mer_seq suffix_ar tally_dist).bwt c
              (min (b * tally_dist) (mer_seq.length - 1)) : Nat) : Int)
          ∧ row[b]? ≠ some (-1) := by
  constructor
  · simp only [build]
    rw [fill_last_length, run_pass_tally_length]
  · obtain ⟨row, hrow, hlen, hget⟩ := build_tally_entry kmer_count compare_kmers mer_seq
      suffix_ar tally_dist hD hSA c b hc (by omega)
    have hocc : occ (build kmer_count compare_kmers mer_seq suffix_ar tally_dist).bwt c
          (min (b * tally_dist) (mer_seq.length - 1))
        = occ_lt (build kmer_count compare_kmers mer_seq suffix_ar tally_dist).bwt c
          (min (b * tally_dist + 1) mer_seq.length) := by
      rw [occ_eq_occ_lt]
      by_cases hn : mer_seq.length = 0
      · rw [build_bwt kmer_count compare_kmers mer_seq suffix_ar tally_dist hD hSA]
        simp [occ_lt, syms, hn]
      · congr 1
        omega
    refine ⟨row, hrow, hlen, ?_, ?_⟩
    · rw [hget, hocc]
    · rw [hget]
      intro h
      have := Option.some.inj h
      omega

/-- C7 at the index of `acgtacgt` with tally distance 2: symbol `c`, the last table
index 4. -/
theorem tally_table_counts_witness :
    (1 ≤ 2 ∧ acgt_sa.length = acgt_ref.length ∧ 1 < 4 ∧ 4 < acgt_ref.length / 2 + 1)
    ∧ ((build 4 nat_compare acgt_ref acgt_sa 2).mer_tally.length = 4
      ∧ ∃ row,
          (build 4 nat_compare acgt_ref acgt_sa 2).mer_tally[1]? = some row
          ∧ row.length = acgt_ref.length / 2 + 1
          ∧ row[4]? = some ((occ (build 4 nat_compare acgt_ref acgt_sa 2).bwt 1
              (min (4 * 2) (acgt_ref.length - 1)) : Nat) : Int)
          ∧ row[4]? ≠ some (-1)) :=
  ⟨by decide,
    tally_table_counts 4 nat_compare acgt_ref acgt_sa 2 (by decide) (by decide) 1 4
      (by decide) (by decide)⟩

/-- C8 (failing input): for the reference `T = [0, 1]` with its sorted suffix array
`[0, 1]` the BWT is `[1, 0]`, and a correct step maps row 0 to row 1 and row 1 to
row 0.  The "next" constructor applied to the single row `[1, 1]` with `bwt[1] = 0`
yields `[1, 1]` again, so a walk from row 1 reads the symbol 0 at every step; applied
to the single row `[0, 0]` with `bwt[0] = 1` it yields the two rows `[1, 2]`.  Counting
rows from 1 instead does not help: `[1, 1]` with `bwt[0] = 1` and `[2, 2]` with
`bwt[1] = 0` both yield the invalid all-zero query. -/
theorem lf_step_misses_rows :
    (build 2 nat_compare [0, 1] [0, 1] 1).bwt = [1, 0]
      ∧ (Query.next (build 2 nat_compare [0, 1] [0, 1] 1)
          { k_id_ := 0, start_ := 1, end_ := 1, match_len_ := 1, stays_ := 0, prob_sum_ := 0 }
          0 0).start_ = 1
      ∧ (Query.next (build 2 nat_compare [0, 1] [0, 1] 1)
          { k_id_ := 0, start_ := 1, end_ := 1, match_len_ := 1, stays_ := 0, prob_sum_ := 0 }
          0 0).end_ = 1
      ∧ (Query.next (build 2 nat_compare [0, 1] [0, 1] 1)
          { k_id_ := 0, start_ := 0, end_ := 0, match_len_ := 1, stays_ := 0, prob_sum_ := 0 }
          1 0).start_ = 1
      ∧ (Query.next (build 2 nat_compare [0, 1] [0, 1] 1)
          { k_id_ := 0, start_ := 0, end_ := 0, match_len_ := 1, stays_ := 0, prob_sum_ := 0 }
          1 0).end_ = 2
      ∧ (Query.next (build 2 nat_compare [0, 1] [0, 1] 1)
          { k_id_ := 0, start_ := 1, end_ := 1, match_len_ := 1, stays_ := 0, prob_sum_ := 0 }
          1 0).is_valid = false
      ∧ (Query.next (build 2 nat_compare [0, 1] [0, 1] 1)
          { k_id_ := 0, start_ := 2, end_ := 2, match_len_ := 1, stays_ := 0, prob_sum_ := 0 }
          0 0).is_valid = false := by
  decide

/-- C9 (counterexample): two sequences of inserts into an empty frontier that run
through.  Inserting `[3, 5]` with match length 1 and then `[1, 8]` with match length 2
leaves `[3, 5]` with match length 1 and adds the pieces `[1, 2]` and `[6, 8]`: position 4
of the second query is covered only by a survivor of match length 1, so the frontier
property of the specification fails.  Inserting `[1, 10]` and then `[3, 5]` leaves both
queries in the frontier, which share the positions 3 to 5. -/
theorem update_queries_keeps_shorter_match :
    insert_all_run []
        [{ k_id_ := 0, start_ := 3, end_ := 5, match_len_ := 1, stays_ := 0, prob_sum_ := 0 },
         { k_id_ := 1, start_ := 1, end_ := 8, match_len_ := 2, stays_ := 0, prob_sum_ := 0 }]
      = some
        [{ k_id_ := 1, start_ := 1, end_ := 2, match_len_ := 2, stays_ := 0, prob_sum_ := 0 },
         { k_id_ := 0, start_ := 3, end_ := 5, match_len_ := 1, stays_ := 0, prob_sum_ := 0 },
         { k_id_ := 1, start_ := 6, end_ := 8, match_len_ := 2, stays_ := 0, prob_sum_ := 0 }]
    ∧ ¬ frontier_contract
        [{ k_id_ := 0, start_ := 3, end_ := 5, match_len_ := 1, stays_ := 0, prob_sum_ := 0 },
         { k_id_ := 1, start_ := 1, end_ := 8, match_len_ := 2, stays_ := 0, prob_sum_ := 0 }]
        [{ k_id_ := 1, start_ := 1, end_ := 2, match_len_ := 2, stays_ := 0, prob_sum_ := 0 },
         { k_id_ := 0, start_ := 3, end_ := 5, match_len_ := 1, stays_ := 0, prob_sum_ := 0 },
         { k_id_ := 1, start_ := 6, end_ := 8, match_len_ := 2, stays_ := 0, prob_sum_ := 0 }]
    ∧ insert_all_run []
        [{ k_id_ := 0, start_ := 1, end_ := 10, match_len_ := 1, stays_ := 0, prob_sum_ := 0 },
         { k_id_ := 1, start_ := 3, end_ := 5, match_len_ := 1, stays_ := 0, prob_sum_ := 0 }]
      = some
        [{ k_id_ := 0, start_ := 1, end_ := 10, match_len_ := 1, stays_ := 0, prob_sum_ := 0 },
         { k_id_ := 1, start_ := 3, end_ := 5, match_len_ := 1, stays_ := 0, prob_sum_ := 0 }]
    ∧ Query.covers
        { k_id_ := 0, start_ := 1, end_ := 10, match_len_ := 1, stays_ := 0, prob_sum_ := 0 } 4
    ∧ Query.covers
        { k_id_ := 1, start_ := 3, end_ := 5, match_len_ := 1, stays_ := 0, prob_sum_ := 0 } 4 := by
  refine ⟨by decide, ?_, by decide, by decide, by decide⟩
  rintro ⟨-, h⟩
  obtain ⟨x, hx, hcov, -, hm⟩ := h
    { k_id_ := 1, start_ := 1, end_ := 8, match_len_ := 2, stays_ := 0, prob_sum_ := 0 }
    (by simp) 4 (by decide)
  have hall : ∀ y ∈
      ([{ k_id_ := 1, start_ := 1, end_ := 2, match_len_ := 2, stays_ := 0, prob_sum_ := 0 },
        { k_id_ := 0, start_ := 3, end_ := 5, match_len_ := 1, stays_ := 0, prob_sum_ := 0 },
        { k_id_ := 1, start_ := 6, end_ := 8, match_len_ := 2, stays_ := 0, prob_sum_ := 0 }]
        : List Query),
      y.covers 4 → y.match_len_ = 1 := by decide
  have := hall x hx hcov
  simp only at hm
  omega

/-- C9 (amended): after any sequence of `update_queries` inserts of queries with `m ≥ 1`
that runs through, every query that was in the frontier is still in it, with its
interval and annotation unchanged; every position covered by an inserted query is
covered by a query of the frontier; and every query of the frontier was either there
before or carries the annotation `(k, m, s, P)` of one of the inserted queries.  An insert
never removes, trims or re-annotates a query of the frontier, whatever the match lengths
and probabilities. -/
theorem update_queries_keeps_existing (queries inserted fr : List Query)
    (hrun : insert_all_run queries inserted = some fr)
    (hm : ∀ q ∈ inserted, 1 ≤ q.match_len_) :
    (∀ x ∈ queries, x ∈ fr)
      ∧ (∀ q ∈ inserted, ∀ p, q.covers p → ∃ x ∈ fr, x.covers p)
      ∧ ∀ y ∈ fr, y ∈ queries ∨ ∃ q ∈ inserted, y.same_payload q := by
  rw [insert_all_run_eq queries inserted fr hrun]
  exact ⟨(insert_all_keeps queries inserted).1, insert_all_covers queries inserted hm,
    (insert_all_keeps queries inserted).2⟩

/-- C9 (amended) at the frontier holding `[3, 5]` with match length 1, after the insert
of `[1, 8]` with match length 2, which runs through. -/
theorem update_queries_keeps_existing_witness :
    (insert_all_run
        [{ k_id_ := 0, start_ := 3, end_ := 5, match_len_ := 1, stays_ := 0, prob_sum_ := 0 }]
        [{ k_id_ := 1, start_ := 1, end_ := 8, match_len_ := 2, stays_ := 0, prob_sum_ := 0 }]
      = some
        [{ k_id_ := 1, start_ := 1, end_ := 2, match_len_ := 2, stays_ := 0, prob_sum_ := 0 },
         { k_id_ := 0, start_ := 3, end_ := 5, match_len_ := 1, stays_ := 0, prob_sum_ := 0 },
         { k_id_ := 1, start_ := 6, end_ := 8, match_len_ := 2, stays_ := 0, prob_sum_ := 0 }]
      ∧ ∀ q ∈
          ([{ k_id_ := 1, start_ := 1, end_ := 8, match_len_ := 2, stays_ := 0, prob_sum_ := 0 }]
            : List Query),
          1 ≤ q.match_len_)
    ∧ ({ k_id_ := 0, start_ := 3, end_ := 5, match_len_ := 1, stays_ := 0, prob_sum_ := 0 }
        : Query)
      ∈ ([{ k_id_ := 1, start_ := 1, end_ := 2, match_len_ := 2, stays_ := 0, prob_sum_ := 0 },
          { k_id_ := 0, start_ := 3, end_ := 5, match_len_ := 1, stays_ := 0, prob_sum_ := 0 },
          { k_id_ := 1, start_ := 6, end_ := 8, match_len_ := 2, stays_ := 0, prob_sum_ := 0 }]
          : List Query) :=
  ⟨by decide,
    (update_queries_keeps_existing
      [{ k_id_ := 0, start_ := 3, end_ := 5, match_len_ := 1, stays_ := 0, prob_sum_ := 0 }]
      [{ k_id_ := 1, start_ := 1, end_ := 8, match_len_ := 2, stays_ := 0, prob_sum_ := 0 }]
      _ (by decide) (by decide)).1 _ (List.mem_singleton.mpr rfl)⟩

/-- C10 (amended): for every query with interval `[l, r]` inside the suffix array
(`0 ≤ l`, `r < |SA|`, `l ≤ r + 1`), match length `m` and stay count `s` with `m + s ≥ 1`,
every `query_end` and every finite `min_prob`: `avg_prob` is the quotient `P / (m + s)`
rounded to `float`; when that `float` is at least `min_prob`, `add_results` returns true
and appends exactly `r - l + 1` results behind the results already present, the `j`-th
of them for position `p = l + j` with `ref_start = SA[p]`, `ref_end = SA[p] + m - 1`,
`qry_end = query_end`, `qry_start = query_end - m - s + 1` and the `float` as `prob`, so
that it spans `m` reference positions and `m + s` events; otherwise it returns false and
the results are unchanged. -/
theorem add_results_spec (fmi : Index) (q : Query) (results : List Result)
    (query_end : Int) (min_prob : ℚ) (hms : 1 ≤ q.match_len_ + q.stays_)
    (hl : 0 ≤ q.start_) (hr : q.end_ < fmi.suffix_ar.length)
    (hlr : q.start_ ≤ q.end_ + 1) :
    q.avg_prob = to_float (q.prob_sum_ / ((q.match_len_ + q.stays_ : Int) : ℚ))
    ∧ (q.avg_prob.ge min_prob = true →
      ∃ added,
        q.add_results fmi results query_end min_prob = (results ++ added, true)
        ∧ (added.length : Int) = q.end_ - q.start_ + 1
        ∧ ∀ j : Nat, j < added.length → ∃ r sa,
            added[j]? = some r
            ∧ fmi.suffix_ar[q.start_.toNat + j]? = some sa
            ∧ r.ref_start = (sa : Int)
            ∧ r.ref_end = (sa : Int) + q.match_len_ - 1
            ∧ r.qry_end = query_end
            ∧ r.qry_start = query_end - q.match_len_ - q.stays_ + 1
            ∧ r.ref_end - r.ref_start + 1 = q.match_len_
            ∧ r.qry_end - r.qry_start + 1 = q.match_len_ + q.stays_
            ∧ r.prob = q.avg_prob)
    ∧ (q.avg_prob.ge min_prob = false →
      q.add_results fmi results query_end min_prob = (results, false)) := by
  refine ⟨?_, ?_, ?_⟩
  · unfold Query.avg_prob
    rw [if_neg (by omega)]
  · intro hp
    refine ⟨(List.range (q.end_ - q.start_ + 1).toNat).map
      (fun (j : Nat) => q.result_at fmi query_end (q.start_ + (j : Int))), ?_, ?_, ?_⟩
    · simp only [Query.add_results, hp, if_true, add_results_loop_eq]
    · simp only [List.length_map, List.length_range]
      omega
    · intro j hj
      simp only [List.length_map, List.length_range] at hj
      have hlt : q.start_.toNat + j < fmi.suffix_ar.length := by omega
      have hsuf : suffix_at fmi (q.start_ + (j : Int))
          = ((fmi.suffix_ar[q.start_.toNat + j] : Nat) : Int) := by
        have hnn : ¬ q.start_ + (j : Int) < 0 := by omega
        have htn : (q.start_ + (j : Int)).toNat = q.start_.toNat + j := by omega
        simp only [suffix_at, if_neg hnn, htn, List.getD_eq_getElem _ _ hlt]
      refine ⟨q.result_at fmi query_end (q.start_ + (j : Int)),
        fmi.suffix_ar[q.start_.toNat + j], ?_, List.getElem?_eq_getElem hlt, ?_, ?_, rfl, rfl,
        ?_, ?_, rfl⟩
      · simp [List.getElem?_map, List.getElem?_range hj]
      · simp only [Query.result_at, hsuf]
      · simp only [Query.result_at, hsuf]
      · simp only [Query.result_at]
        omega
      · simp only [Query.result_at]
        omega
  · intro hp
    simp only [Query.add_results, hp, Bool.false_eq_true, if_false]

section

unseal Rat.add Rat.mul Rat.inv Rat.sub

set_option maxRecDepth 100000 in
/-- C10 (counterexample): the query with `P = -1`, `m = 3`, `s = 0` and interval `[3, 3]`
on the index of `acgt`, with `min_prob = -44739243 / 2^27`.  The quotient
`P / (m + s) = -1/3` is not below `min_prob`, but `avg_prob` returns the `float` nearest
to `-1/3`, which is `-11184811 / 2^25` and is below `min_prob` (the same `float` results
when the quotient is rounded to `double` first): `add_results` appends nothing and
returns false. -/
theorem add_results_rounds_quotient :
    (({ k_id_ := 2, start_ := 3, end_ := 3, match_len_ := 3, stays_ := 0, prob_sum_ := -1 }
        : Query).prob_sum_
      / (((({ k_id_ := 2, start_ := 3, end_ := 3, match_len_ := 3, stays_ := 0, prob_sum_ := -1 }
              : Query).match_len_
          + ({ k_id_ := 2, start_ := 3, end_ := 3, match_len_ := 3, stays_ := 0, prob_sum_ := -1 }
              : Query).stays_ : Int)) : ℚ)
      ≥ -44739243 / 134217728)
    ∧ Query.avg_prob
        { k_id_ := 2, start_ := 3, end_ := 3, match_len_ := 3, stays_ := 0, prob_sum_ := -1 }
      = .finite (-11184811 / 33554432)
    ∧ to_double (-1 / 3) = .finite (-6004799503160661 / 18014398509481984)
    ∧ to_float (-6004799503160661 / 18014398509481984) = .finite (-11184811 / 33554432)
    ∧ Query.add_results acgt4_index
        { k_id_ := 2, start_ := 3, end_ := 3, match_len_ := 3, stays_ := 0, prob_sum_ := -1 }
        [] 2226 (-44739243 / 134217728)
      = ([], false) := by
  decide

set_option maxRecDepth 100000 in
/-- C10 (amended) on the index of `acgt`: the query of `g` with interval `[3, 3]`, `m = 2`
and `P = -2`, with `query_end = 2226` and `min_prob = SEED_THRESH`. -/
theorem add_results_spec_witness :
    ((1 : Int) ≤ 2 + 0 ∧ (0 : Int) ≤ 3 ∧ (3 : Int) < acgt4_index.suffix_ar.length
      ∧ (3 : Int) ≤ 3 + 1
      ∧ (Query.avg_prob
          { k_id_ := 2, start_ := 3, end_ := 3, match_len_ := 2, stays_ := 0, prob_sum_ := -2 }).ge
        SEED_THRESH = true)
    ∧ ∃ added,
        Query.add_results acgt4_index
          { k_id_ := 2, start_ := 3, end_ := 3, match_len_ := 2, stays_ := 0, prob_sum_ := -2 }
          [] 2226 SEED_THRESH = ([] ++ added, true)
        ∧ (added.length : Int) = 3 - 3 + 1 :=
  ⟨by decide, by
    obtain ⟨added, h1, h2, -⟩ :=
      (add_results_spec acgt4_index
        { k_id_ := 2, start_ := 3, end_ := 3, match_len_ := 2, stays_ := 0, prob_sum_ := -2 }
        [] 2226 SEED_THRESH (by decide) (by decide) (by decide) (by decide)).2.1 (by decide)
    exact ⟨added, h1, h2⟩⟩

end

/-- C11 (failing input): for the reference `T = [0, 0]` and the starts 0 and 1 the
comparator finds equal symbols at offset 0 and then reads position `1 + 1 = 2`, past the
end: `at` throws instead of wrapping to index 0, in either order of the two starts.  The
cyclic comparison of the specification is defined there and gives "not less". -/
theorem suffix_less_runs_past_end :
    suffix_less nat_compare [0, 0] 0 1 = none
      ∧ suffix_less nat_compare [0, 0] 1 0 = none
      ∧ rotation_less nat_compare [0, 0] 0 1 = false
      ∧ rotation_less nat_compare [0, 0] 1 0 = false := by
  decide

/-- C12 (counterexample): called with the empty k-mer sequence and tally distance 2 the
builder reports no `InvalidInput`; it returns the tables of an empty index. -/
theorem construct_accepts_empty_sequence :
    construct 4 nat_compare [] [] 2 ≠ Except.error BuildError.InvalidInput
      ∧ construct 4 nat_compare [] [] 2
        = Except.ok
            { tally_dist := 2
              suffix_ar := []
              bwt := []
              mer_f_starts := [1, 1, 1, 1]
              mer_counts := [0, 0, 0, 0]
              mer_tally := [[0], [0], [0], [0]] } := by
  constructor
  · intro h
    simp [construct] at h
  · rfl

/-- C12 (amended): the builder validates nothing.  Called with the empty k-mer sequence
and any tally distance `D ≥ 1` it reports no error and returns the tables of the empty
index: empty suffix array and BWT, every count 0, every F start 1 and one tally entry 0
per symbol. -/
theorem construct_empty_sequence (kmer_count : Nat) (compare_kmers : Nat → Nat → Int)
    (tally_dist : Nat) (hD : 1 ≤ tally_dist) :
    construct kmer_count compare_kmers [] [] tally_dist
      = Except.ok
          { tally_dist := tally_dist
            suffix_ar := []
            bwt := []
            mer_f_starts := List.replicate kmer_count 1
            mer_counts := List.replicate kmer_count 0
            mer_tally := List.replicate kmer_count [0] } := by
  have _ := hD
  rw [construct, build_empty]

/-- C12 (amended) for four symbols and tally distance 2. -/
theorem construct_empty_sequence_witness :
    1 ≤ 2 ∧ construct 4 nat_compare [] [] 2
      = Except.ok
          { tally_dist := 2
            suffix_ar := []
            bwt := []
            mer_f_starts := List.replicate 4 1
            mer_counts := List.replicate 4 0
            mer_tally := List.replicate 4 [0] } :=
  ⟨by decide, construct_empty_sequence 4 nat_compare 2 (by decide)⟩

/-- C13 (counterexample): on the index of `acgtacgt`, `get_tally` for the symbol `c` at
the index `-1` is `-1`, not 0. -/
theorem get_tally_negative_index :
    get_tally acgt_index 1 (-1) ≠ 0 ∧ get_tally acgt_index 1 (-1) = -1 := by
  decide

/-- C13 (amended): for every index, every symbol `c` and every `i < 0`, `get_tally c i`
returns `-1`. -/
theorem get_tally_below_zero (fmi : Index) (c : Nat) (i : Int) (h : i < 0) :
    get_tally fmi c i = -1 :=
  get_tally_neg fmi c i h

/-- C13 (amended) on the index of `acgtacgt`, symbol `t`, index `-7`. -/
theorem get_tally_below_zero_witness :
    (-7 : Int) < 0 ∧ get_tally acgt_index 3 (-7) = -1 :=
  ⟨by decide, get_tally_below_zero acgt_index 3 (-7) (by decide)⟩

/-- C14 (counterexample): for the reference `T = [1]` over two symbols the symbol 0 does
not occur; it stands before 1 in the natural order, yet `mer_f_starts` is 1 for both, so
F is not strictly increasing. -/
theorem mer_f_starts_tie :
    nat_compare 0 1 < 0
      ∧ (build 2 nat_compare [1] [0] 1).mer_f_starts = [1, 1]
      ∧ ¬ ((build 2 nat_compare [1] [0] 1).mer_f_starts.getD 0 0
          < (build 2 nat_compare [1] [0] 1).mer_f_starts.getD 1 0) := by
  decide

/-- C14 (amended): after the build, when `compare_kmers` is a total order (`a` before `b`
means `b` after `a`, "after" is transitive, and a symbol compares equal to itself), F is
non-decreasing in the model order: for symbols `c` before `d`,
`mer_f_starts[c] + mer_counts[c] ≤ mer_f_starts[d]`, so `mer_f_starts[c] ≤
mer_f_starts[d]`, strictly when `c` occurs (`mer_counts[c] ≥ 1`). -/
theorem mer_f_starts_monotone (kmer_count : Nat) (compare_kmers : Nat → Nat → Int)
    (mer_seq suffix_ar : List Nat) (tally_dist : Nat)
    (hflip : ∀ a b, compare_kmers a b < 0 → compare_kmers b a > 0)
    (htrans : ∀ a b e, compare_kmers a b > 0 → compare_kmers b e > 0 → compare_kmers a e > 0)
    (hself : ∀ a, compare_kmers a a = 0)
    (c d : Nat) (hc : c < kmer_count) (hd : d < kmer_count) (hcd : compare_kmers c d < 0) :
    (build kmer_count compare_kmers mer_seq suffix_ar tally_dist).mer_f_starts.getD c 0
        + (build kmer_count compare_kmers mer_seq suffix_ar tally_dist).mer_counts.getD c 0
      ≤ (build kmer_count compare_kmers mer_seq suffix_ar tally_dist).mer_f_starts.getD d 0
    ∧ (build kmer_count compare_kmers mer_seq suffix_ar tally_dist).mer_f_starts.getD c 0
      ≤ (build kmer_count compare_kmers mer_seq suffix_ar tally_dist).mer_f_starts.getD d 0
    ∧ (1 ≤ (build kmer_count compare_kmers mer_seq suffix_ar tally_dist).mer_counts.getD c 0 →
      (build kmer_count compare_kmers mer_seq suffix_ar tally_dist).mer_f_starts.getD c 0
        < (build kmer_count compare_kmers mer_seq suffix_ar tally_dist).mer_f_starts.getD d 0) := by
  have hnn := run_pass_counts_nonneg kmer_count mer_seq suffix_ar tally_dist suffix_ar.length
  have hF : ∀ x, x < kmer_count →
      (build kmer_count compare_kmers mer_seq suffix_ar tally_dist).mer_f_starts.getD x 0
        = 1 + ((List.range kmer_count).map (fun j => if compare_kmers x j > 0 then
            (run_pass kmer_count mer_seq suffix_ar tally_dist suffix_ar.length).mer_counts.getD
              j 0 else 0)).sum := by
    intro x hx
    simp only [build, List.getD_eq_getElem?_getD, List.getElem?_map, List.getElem?_range hx,
      Option.map_some', Option.getD_some]
    rw [f_start_eq_sum]
    simp only [List.getD_eq_getElem?_getD]
  have hcnt : (build kmer_count compare_kmers mer_seq suffix_ar tally_dist).mer_counts
      = (run_pass kmer_count mer_seq suffix_ar tally_dist suffix_ar.length).mer_counts := rfl
  rw [hF c hc, hF d hd, hcnt]
  generalize (run_pass kmer_count mer_seq suffix_ar tally_dist suffix_ar.length).mer_counts
    = counts at hnn ⊢
  have hdc : compare_kmers d c > 0 := hflip c d hcd
  have hkey := sum_map_add_le (List.range kmer_count)
    (fun j => if compare_kmers c j > 0 then counts.getD j 0 else 0)
    (fun j => if j = c then counts.getD c 0 else 0)
    (fun j => if compare_kmers d j > 0 then counts.getD j 0 else 0)
    (by
      intro j _
      have hj0 := hnn j
      dsimp only
      by_cases hjc : j = c
      · have hcc : ¬ compare_kmers c c > 0 := by rw [hself]; decide
        rw [hjc, if_neg hcc, if_pos rfl, if_pos hdc]
        omega
      · by_cases hcj : compare_kmers c j > 0
        · have hdj : compare_kmers d j > 0 := htrans d c j hdc hcj
          rw [if_pos hcj, if_neg hjc, if_pos hdj]
          omega
        · by_cases hdj : compare_kmers d j > 0
          · rw [if_neg hcj, if_neg hjc, if_pos hdj]
            omega
          · rw [if_neg hcj, if_neg hjc, if_neg hdj]
            omega)
  rw [sum_map_single kmer_count c _ hc] at hkey
  have hc0 := hnn c
  refine ⟨by omega, by omega, fun h => by omega⟩

/-- C14 (amended) at the index of `acgtacgt`: `c` before `g`. -/
theorem mer_f_starts_monotone_witness :
    (1 < 4 ∧ 2 < 4 ∧ nat_compare 1 2 < 0)
    ∧ (build 4 nat_compare acgt_ref acgt_sa 2).mer_f_starts.getD 1 0
        + (build 4 nat_compare acgt_ref acgt_sa 2).mer_counts.getD 1 0
      ≤ (build 4 nat_compare acgt_ref acgt_sa 2).mer_f_starts.getD 2 0 :=
  ⟨by decide,
    (mer_f_starts_monotone 4 nat_compare acgt_ref acgt_sa 2 nat_compare_flip nat_compare_trans
      nat_compare_self 1 2 (by decide) (by decide) (by decide)).1⟩

/-- C15: after the build over a reference of length `n` whose symbols are all below
`kmer_count`, with a suffix array of `n` positions of the reference, the counts of all
symbols sum to `n`. -/
theorem mer_counts_sum (kmer_count : Nat) (compare_kmers : Nat → Nat → Int)
    (mer_seq suffix_ar : List Nat) (tally_dist : Nat)
    (hSA : suffix_ar.length = mer_seq.length) (hsym : ∀ x ∈ mer_seq, x < kmer_count)
    (hrange : ∀ p ∈ suffix_ar, p < mer_seq.length) :
    (build kmer_count compare_kmers mer_seq suffix_ar tally_dist).mer_counts.length
        = kmer_count
      ∧ (build kmer_count compare_kmers mer_seq suffix_ar tally_dist).mer_counts.sum
        = (mer_seq.length : Int) := by
  constructor
  · simp only [build]
    rw [run_pass_counts_length]
  · simp only [build]
    rw [run_pass_counts_sum kmer_count mer_seq suffix_ar tally_dist hsym hrange _
      (Nat.le_refl _), hSA]

/-- C15 at `acgtacgt` with tally distance 2. -/
theorem mer_counts_sum_witness :
    (acgt_sa.length = acgt_ref.length ∧ (∀ x ∈ acgt_ref, x < 4)
      ∧ ∀ p ∈ acgt_sa, p < acgt_ref.length)
    ∧ (build 4 nat_compare acgt_ref acgt_sa 2).mer_counts.sum = (acgt_ref.length : Int) :=
  ⟨by decide,
    (mer_counts_sum 4 nat_compare acgt_ref acgt_sa 2 (by decide) (by decide) (by decide)).2⟩

/-- C19 (counterexample): on the index of `acgt` with tally distance 4 the checkpoint
after index 3 would be position 4, outside the BWT, so `tally_cp_dist 3 = -3`: the walk
covers 3 positions, more than `4 / 2 = 2`. -/
theorem tally_cp_dist_last_block :
    tally_cp_dist (build 4 nat_compare [0, 1, 2, 3] [0, 1, 2, 3] 4) 3 = -3
      ∧ ¬ (tally_cp_dist (build 4 nat_compare [0, 1, 2, 3] [0, 1, 2, 3] 4) 3).natAbs ≤ 4 / 2
      ∧ get_tally_reads (build 4 nat_compare [0, 1, 2, 3] [0, 1, 2, 3] 4) 3 = 3 := by
  decide

/-- C19 (amended): for every tally distance `D ≥ 1` and every index `i ≥ 0`,
`|tally_cp_dist i| ≤ D - 1`, and `|tally_cp_dist i| ≤ D / 2` whenever the checkpoint
after `i` lies inside the BWT (`(i / D) * D + D < n`); `get_tally` reads exactly
`|tally_cp_dist i|` BWT entries. -/
theorem tally_cp_dist_bound (fmi : Index) (i : Int) (hD : 1 ≤ fmi.tally_dist) (hi : 0 ≤ i) :
    (tally_cp_dist fmi i).natAbs ≤ fmi.tally_dist - 1
      ∧ (Int.tdiv i fmi.tally_dist * fmi.tally_dist + fmi.tally_dist < fmi.bwt.length →
        (tally_cp_dist fmi i).natAbs ≤ fmi.tally_dist / 2)
      ∧ get_tally_reads fmi i = (tally_cp_dist fmi i).natAbs := by
  obtain ⟨k, rfl⟩ := Int.eq_ofNat_of_zero_le hi
  have h1 : k / fmi.tally_dist * fmi.tally_dist ≤ k := Nat.div_mul_le_self _ _
  have h2 : k < k / fmi.tally_dist * fmi.tally_dist + fmi.tally_dist :=
    Nat.lt_div_mul_add (by omega)
  have hcp : Int.tdiv (k : Int) (fmi.tally_dist : Int) * (fmi.tally_dist : Int)
      = ((k / fmi.tally_dist * fmi.tally_dist : Nat) : Int) := by
    rw [← Int.ofNat_tdiv]; push_cast; rfl
  have hreads : get_tally_reads fmi (k : Int) = (tally_cp_dist fmi (k : Int)).natAbs := by
    unfold get_tally_reads
    rw [if_neg (by omega)]
    split
    · omega
    · split <;> omega
  refine ⟨?_, ?_, hreads⟩
  · simp only [tally_cp_dist, hcp]
    generalize k / fmi.tally_dist * fmi.tally_dist = cp at *
    split <;> omega
  · simp only [tally_cp_dist, hcp]
    generalize k / fmi.tally_dist * fmi.tally_dist = cp at *
    intro hin
    split <;> omega

/-- C19 (amended) at the index of `acgtacgt` with tally distance 2 and index 5. -/
theorem tally_cp_dist_bound_witness :
    (1 ≤ acgt_index.tally_dist ∧ (0 : Int) ≤ 5)
    ∧ (tally_cp_dist acgt_index 5).natAbs ≤ acgt_index.tally_dist - 1 :=
  ⟨by decide, (tally_cp_dist_bound acgt_index 5 (by decide) (by decide)).1⟩

/-- C20 (failing input): the intervals `a = [1, 10]` and `b = [3, 5]` share the positions
3 to 5, but `a.intersects(b)` is false, because neither endpoint of `a` lies inside `b`,
while `b.intersects(a)` is true. -/
theorem intersects_misses_containment :
    Query.intersects
        { k_id_ := 0, start_ := 1, end_ := 10, match_len_ := 1, stays_ := 0, prob_sum_ := 0 }
        { k_id_ := 0, start_ := 3, end_ := 5, match_len_ := 1, stays_ := 0, prob_sum_ := 0 }
      = false
    ∧ Query.intersects
        { k_id_ := 0, start_ := 3, end_ := 5, match_len_ := 1, stays_ := 0, prob_sum_ := 0 }
        { k_id_ := 0, start_ := 1, end_ := 10, match_len_ := 1, stays_ := 0, prob_sum_ := 0 }
      = true
    ∧ ((1 : Int) ≤ 5 ∧ (3 : Int) ≤ 10) := by
  decide

/-- C16 (amended): for every `seed_len ≥ 2`, every query that `lf_map` moves into
`finished` has match length exactly `seed_len`, and every result it returns spans exactly
`seed_len` reference positions. -/
theorem finished_match_len (fmi : Index) (kmer_count : Nat) (get_neighbors : Nat → List Nat)
    (ep : Nat → Nat → ℚ) (stay_prob : Nat → ℚ) (map_start : Nat) (seed_len : Int)
    (hlen : 2 ≤ seed_len) :
    (∀ q ∈ (lf_search fmi kmer_count get_neighbors ep stay_prob map_start seed_len).finished,
        q.match_len_ = seed_len)
      ∧ ∀ r ∈ lf_map fmi kmer_count get_neighbors ep stay_prob map_start seed_len,
          r.ref_end - r.ref_start + 1 = seed_len := by
  have hb := lf_search_bounded fmi kmer_count get_neighbors ep stay_prob map_start seed_len
    hlen
  refine ⟨hb.2.2, ?_⟩
  unfold lf_map
  exact emit_results_span fmi _ seed_len _ hb.2.2 none [] (fun r hr => by cases hr)

section

unseal Rat.add Rat.mul Rat.inv Rat.sub

set_option maxRecDepth 100000 in
/-- C16 (counterexample): on the index of `acgt` with `seed_len = 1` and
`map_start = 2226`, events that match `g`: the seed of `g` has match length 1 and is
extended once before it is moved into `finished`, so the finished query has match length
2, not 1.  And the search of four events with `map_start = 3` returns no result at all,
because the sweep only visits seed endpoints from 2226 upwards. -/
theorem finished_match_len_two :
    ¬ (∀ q ∈ (lf_search acgt4_index 4 all_symbols ep_g_late (fun _ => 0) 2226 1).finished,
        q.match_len_ = 1)
      ∧ (lf_search acgt4_index 4 all_symbols ep_g_late (fun _ => 0) 2226 1).finished.map
          (fun q => (q.k_id_, q.start_, q.end_, q.match_len_, q.stays_))
        = [(2, 3, 3, 2, 0)]
      ∧ (lf_map acgt4_index 4 all_symbols unique_ep (fun _ => 0) 3 1).length = 0 := by
  decide

/-- C16 (amended) on the index of `acgt` with `seed_len = 2` and `map_start = 2226`. -/
theorem finished_match_len_witness :
    (2 : Int) ≤ 2
      ∧ ∀ q ∈ (lf_search acgt4_index 4 all_symbols ep_g_late (fun _ => 0) 2226 2).finished,
          q.match_len_ = 2 :=
  ⟨by decide,
    (finished_match_len acgt4_index 4 all_symbols ep_g_late (fun _ => 0) 2226 2
      (by decide)).1⟩

set_option maxRecDepth 100000 in
/-- C17 (failing input): on the index of `acgt` with `map_start = 2227`, event 2227
matches `g` only and event 2226 matches `a` only.  The sweep visits the endpoints 2227
and 2226; at 2226 the row of emissions passes `EVENT_THRESH` for `a` and not for `g`, so
seeding from that row gives the query of `a`, interval `[1, 1]`.  The seeded frontier of
the search holds only the query of `g`, interval `[3, 3]`, read from row 2227. -/
theorem seeds_read_map_start_row :
    (lf_search acgt4_index 4 all_symbols ep_two_rows (fun _ => 0) 2227 5).back.map
        (fun q => (q.k_id_, q.start_, q.end_, q.match_len_, q.stays_))
      = [(2, 3, 3, 1, 0)]
    ∧ ep_two_rows 2226 0 ≥ EVENT_THRESH
    ∧ ¬ ep_two_rows 2226 2 ≥ EVENT_THRESH
    ∧ (seed_frontier acgt4_index 4 (ep_two_rows 2226) []).map
        (fun q => (q.k_id_, q.start_, q.end_, q.match_len_, q.stays_))
      = [(0, 1, 1, 1, 0)] := by
  decide

end

/-- C21: on a built index (`D ≥ 1`) and with neighbours that are k-mers of the model, every
query that `lf_map` has put into a frontier or into `finished` has an interval starting at
row 1 or later, match length `m ≥ 1` and stay count `s ≥ 0`, so `m + s ≥ 1` and the
divisor of `avg_prob` is not zero.  Its interval is non-empty (`l ≤ r`) when it is an
initial-match query, or a stay of one, of a k-mer with `cnt ≥ 1`, when it comes from the
match constructor (`m ≥ 2`), and always when it is in `finished`, where `add_results` is
called on it. -/
theorem inserted_queries_sound (kmer_count : Nat) (compare_kmers : Nat → Nat → Int)
    (mer_seq suffix_ar : List Nat) (tally_dist : Nat) (hD : 1 ≤ tally_dist)
    (hSA : suffix_ar.length = mer_seq.length) (get_neighbors : Nat → List Nat)
    (hnb : ∀ k, ∀ n ∈ get_neighbors k, n < kmer_count) (ep : Nat → Nat → ℚ)
    (stay_prob : Nat → ℚ) (map_start : Nat) (seed_len : Int) (q : Query)
    (hq : q ∈ (lf_search (build kmer_count compare_kmers mer_seq suffix_ar tally_dist)
          kmer_count get_neighbors ep stay_prob map_start seed_len).back
      ∨ q ∈ (lf_search (build kmer_count compare_kmers mer_seq suffix_ar tally_dist)
          kmer_count get_neighbors ep stay_prob map_start seed_len).next
      ∨ q ∈ (lf_search (build kmer_count compare_kmers mer_seq suffix_ar tally_dist)
          kmer_count get_neighbors ep stay_prob map_start seed_len).finished) :
    1 ≤ q.start_ ∧ 1 ≤ q.match_len_ ∧ 0 ≤ q.stays_ ∧ 1 ≤ q.match_len_ + q.stays_
      ∧ ((q.match_len_ + q.stays_ : Int) : ℚ) ≠ 0
      ∧ (1 ≤ (build kmer_count compare_kmers mer_seq suffix_ar tally_dist).mer_counts.getD
            q.k_id_ 0 → q.start_ ≤ q.end_)
      ∧ (2 ≤ q.match_len_ → q.start_ ≤ q.end_)
      ∧ (q ∈ (lf_search (build kmer_count compare_kmers mer_seq suffix_ar tally_dist)
            kmer_count get_neighbors ep stay_prob map_start seed_len).finished →
          q.start_ ≤ q.end_) := by
  have hg := lf_search_grounded kmer_count compare_kmers mer_seq suffix_ar tally_dist hD hSA
    get_neighbors hnb ep stay_prob map_start seed_len
  have hgq : q.grounded (build kmer_count compare_kmers mer_seq suffix_ar tally_dist) := by
    rcases hq with h | h | h
    · exact hg.1 q h
    · exact hg.2.1 q h
    · exact (hg.2.2 q h).1
  obtain ⟨h1, _, h3, h4, h5⟩ := hgq
  have hne : ((q.match_len_ + q.stays_ : Int) : ℚ) ≠ 0 := by
    have hpos : (0 : Int) < q.match_len_ + q.stays_ := by omega
    exact_mod_cast hpos.ne.symm
  exact ⟨h1, h3, h4, by omega, hne, fun h => h5 (Or.inl h), fun h => h5 (Or.inr h),
    fun h => (hg.2.2 q h).2⟩

section

unseal Rat.add Rat.mul Rat.inv Rat.sub

set_option maxRecDepth 100000 in
/-- C21 on the index of `acgt` with `seed_len = 2` and `map_start = 2226`, events matching
`g`: the query of `g` with match length 2 that the search has moved into `finished`. -/
theorem inserted_queries_sound_witness :
    (1 ≤ 1 ∧ [0, 1, 2, 3].length = [0, 1, 2, 3].length
      ∧ ({ k_id_ := 2, start_ := 3, end_ := 3, match_len_ := 2, stays_ := 0, prob_sum_ := 0 }
          : Query)
        ∈ (lf_search (build 4 nat_compare [0, 1, 2, 3] [0, 1, 2, 3] 1) 4 all_symbols
            ep_g_late (fun _ => 0) 2226 2).finished)
    ∧ (1 : Int) ≤ 3 ∧ (1 : Int) ≤ 2 ∧ (0 : Int) ≤ 0 ∧ (1 : Int) ≤ 2 + 0 :=
  ⟨by decide, by
    have h := inserted_queries_sound 4 nat_compare [0, 1, 2, 3] [0, 1, 2, 3] 1 (by decide)
      (by decide) all_symbols all_symbols_lt ep_g_late (fun _ => 0) 2226 2
      { k_id_ := 2, start_ := 3, end_ := 3, match_len_ := 2, stays_ := 0, prob_sum_ := 0 }
      (Or.inr (Or.inr (by decide)))
    exact ⟨h.1, h.2.1, h.2.2.1, h.2.2.2.1⟩⟩

end

end NanoFMI
